import Mathlib

/-!
# Session event relay of `app.go`

A shallow embedding of the session registry (`wsChannels`, written by
`mainHandler` and read by `wshandler`) and of the relay worker (`wshandler`),
together with the properties of the relay that the specification states.

* Go channels are values of `Chan`: a capacity, the buffered events and the
  events of the sends that are parked on the channel, oldest first.
* A channel value of type `chan interface{}` is a reference: `Option Nat`,
  `none` being the nil channel; the referenced channels live in `Server.heap`.
* The map `wsChannels` is a function `String → Option Nat`; indexing a Go map
  at an absent key yields the zero value, here the nil channel `none`.
* `wshandler` is a step function on `State`; a blocking operation that cannot
  proceed leaves the state as it is. `run` iterates it; `exec` interleaves its
  steps with the sends of producers (`Tick`).
* A `Process` is several workers on one shared state; a worker that reaches
  `os.Exit` ends all of them (`execProcess`).
* The libraries are parameters: `marshal` stands for `json.Marshal`, a `Conn`
  gives the outcomes of `Upgrade`, `ReadMessage` and `WriteMessage`, a
  `Request` carries the outcome of `uuid.NewV4`.
-/

namespace Playground

variable {Event : Type}

/-! ## Go channels -/

/-- A Go channel: `cap` is the capacity given to `make`, `buf` holds the events
whose send has completed and that were not received yet, `sendq` holds the
events of the sends that are blocked on the channel, oldest first. -/
structure Chan (Event : Type) where
  cap : Nat
  buf : List Event
  sendq : List Event

/-- The channel of `make(chan interface{})` (app.go, line 91): no capacity
argument, hence an unbuffered channel. -/
def makeChan : Chan Event := ⟨0, [], []⟩

/-- A send `c <- e` while no receiver waits on `c`: it completes (`true`) when
the buffer has room, otherwise the sender blocks and its event is parked. -/
def Chan.send (c : Chan Event) (e : Event) : Chan Event × Bool :=
  if c.sendq.isEmpty && decide (c.buf.length < c.cap) then
    ({ c with buf := c.buf ++ [e] }, true)
  else
    ({ c with sendq := c.sendq ++ [e] }, false)

/-- A receive `<-c`: the oldest buffered event (the oldest parked send then
moves into the buffer), else the event of the oldest parked send, else the
receiver blocks (`none`). -/
def Chan.recv (c : Chan Event) : Option (Event × Chan Event) :=
  match c.buf, c.sendq with
  | e :: rest, [] => some (e, { c with buf := rest })
  | e :: rest, p :: ps => some (e, { c with buf := rest ++ [p], sendq := ps })
  | [], p :: ps => some (p, { c with sendq := ps })
  | [], [] => none

/-- The events a channel still has to deliver, in delivery order. -/
def Chan.contents (c : Chan Event) : List Event := c.buf ++ c.sendq

/-! ## The registry and `mainHandler` -/

/-- The shared state of the process: the map `wsChannels` of `main`, the
channels allocated so far and the number of allocations. -/
structure Server (Event : Type) where
  channels : String → Option Nat
  heap : Nat → Chan Event
  next : Nat

/-- The state built by `main` (line 47): `make(map[string]chan interface{})`. -/
def Server.empty : Server Event := ⟨fun _ => none, fun _ => makeChan, 0⟩

/-- A send on the channel referenced by `c`, no receiver waiting. -/
def Server.send (s : Server Event) (c : Nat) (e : Event) : Server Event :=
  { s with heap := Function.update s.heap c ((s.heap c).send e).1 }

/-- Sends performed one after the other on the channel referenced by `c`. -/
def Server.sendAll (s : Server Event) (c : Nat) : List Event → Server Event
  | [] => s
  | e :: es => (s.send c e).sendAll c es

/-- What a request to `mainHandler` brings: the path of the URL and the outcome
of `uuid.NewV4()`, represented by the text `channelUUID.String()` (the only
form the handler uses), `none` when the generator returns an error. -/
structure Request where
  path : String
  gen : Option String

/-- A session created by `mainHandler`: the identifier given to the template,
the channel made for it and the channel value passed to `main_`. -/
structure Session where
  uuid : String
  made : Nat
  handed : Option Nat
  deriving DecidableEq, Repr

/-- The handler returned by `mainHandler` (lines 85-93), as far as the registry
is concerned: any path but "/" returns at once; an error of the generator makes
`uuid.Must` panic before the map is written; otherwise a channel is made and
stored at the identifier, and the value read back from the map goes to
`main_`. The rest of the handler only writes the response. -/
def mainHandler (s : Server Event) (r : Request) : Server Event × Option Session :=
  if r.path ≠ "/" then (s, none)
  else
    match r.gen with
    | none => (s, none)
    | some channelUUID =>
      let channels := Function.update s.channels channelUUID (some s.next)
      ({ channels := channels
         heap := Function.update s.heap s.next makeChan
         next := s.next + 1 },
       some ⟨channelUUID, s.next, channels channelUUID⟩)

/-- Requests served one after the other, with the sessions they created. -/
def serveAll (s : Server Event) : List Request → Server Event × List Session
  | [] => (s, [])
  | r :: rs =>
    ((serveAll (mainHandler s r).1 rs).1,
      (mainHandler s r).2.toList ++ (serveAll (mainHandler s r).1 rs).2)

/-- The identifiers returned by a run of requests. -/
def createdIds (s : Server Event) (rs : List Request) : List String :=
  (serveAll s rs).2.map Session.uuid

/-- The value the generator produces for a request: it is called only when
the path is "/". -/
def Request.generated (r : Request) : Option String :=
  if r.path ≠ "/" then none else r.gen

/-- A registry as creations build it: every channel it holds was allocated, and
no channel is held at two keys. -/
def Server.WellFormed (s : Server Event) : Prop :=
  (∀ k c, s.channels k = some c → c < s.next) ∧
    (∀ k1 k2 c, s.channels k1 = some c → s.channels k2 = some c → k1 = k2)

/-! ## The relay worker `wshandler` -/

/-- Where a worker stands. `connecting`: before `upgrader.Upgrade`;
`awaitingHandshake`: before `conn.ReadMessage`; `bound`: the identifier is
read, before the map is indexed; `relaying`: at the head of the loop with
`dataChan`; `closed`: returned after `conn.Close()`; `exited`: `os.Exit(1)`
was called by `exitOnError`, the process is gone. -/
inductive Phase where
  | connecting
  | awaitingHandshake
  | bound (uuid : String)
  | relaying (dataChan : Option Nat)
  | closed
  | exited
  deriving DecidableEq, Repr

/-- What a worker does on its connection. -/
inductive Action where
  | write (msg : String) (ok : Bool)
  | close
  deriving DecidableEq, Repr

/-- The behaviour of one connection: whether `Upgrade` succeeds, what
`ReadMessage` returns (`none` for an error) and whether the `n`-th call of
`WriteMessage`, with a given message, succeeds. -/
structure Conn where
  upgradeOk : Bool
  readMessage : Option String
  writeOk : Nat → String → Bool

/-- A worker together with the shared state: `log` is what the worker did on
its connection, oldest first, `nwrite` the number of `WriteMessage` calls. -/
structure State (Event : Type) where
  server : Server Event
  phase : Phase
  log : List Action
  nwrite : Nat

/-- The function `exitOnError` (lines 16-24): a nil error returns to the
caller, which goes on to `next`; any other error exits the process. -/
def exitOnError (err : Bool) (next : Phase) : Phase :=
  if err then Phase.exited else next

/-- One step of the handler returned by `wshandler` (lines 120-148), with
`marshal` standing for `json.Marshal` (`none` for an error). -/
def wshandler (marshal : Event → Option String) (conn : Conn) (st : State Event) :
    State Event :=
  match st.phase with
  | Phase.connecting =>
    { st with phase := exitOnError (!conn.upgradeOk) Phase.awaitingHandshake }
  | Phase.awaitingHandshake =>
    match conn.readMessage with
    | none => { st with phase := exitOnError true Phase.awaitingHandshake }
    | some p => { st with phase := exitOnError false (Phase.bound p) }
  | Phase.bound uuid => { st with phase := Phase.relaying (st.server.channels uuid) }
  | Phase.relaying none => st
  | Phase.relaying (some c) =>
    match (st.server.heap c).recv with
    | none => st
    | some (event, ch) =>
      let server := { st.server with heap := Function.update st.server.heap c ch }
      match marshal event with
      | none => { st with server := server, phase := exitOnError true st.phase }
      | some b =>
        if conn.writeOk st.nwrite b then
          { server := server
            phase := exitOnError false st.phase
            log := st.log ++ [Action.write b true]
            nwrite := st.nwrite + 1 }
        else
          { server := server
            phase := Phase.closed
            log := st.log ++ [Action.write b false, Action.close]
            nwrite := st.nwrite + 1 }
  | Phase.closed => st
  | Phase.exited => st

/-- The worker at the start of a connection. -/
def State.init (s : Server Event) : State Event := ⟨s, Phase.connecting, [], 0⟩

/-- The worker after `n` steps. -/
def run (marshal : Event → Option String) (conn : Conn) : Nat → State Event → State Event
  | 0, st => st
  | n + 1, st => run marshal conn n (wshandler marshal conn st)

/-- The number of steps a worker is away from the loop. -/
def Phase.toLoop : Phase → Nat
  | Phase.connecting => 3
  | Phase.awaitingHandshake => 2
  | Phase.bound _ => 1
  | _ => 0

/-! ## Runs: steps of a worker interleaved with sends of producers -/

/-- What happens next in a run: the worker takes a step, or a producer sends
`e` on the channel referenced by `c`. -/
inductive Tick (Event : Type) where
  | step
  | send (c : Nat) (e : Event)
  deriving DecidableEq, Repr

/-- A send by a producer, seen from a worker's state. The event joins the
channel; a worker that waits in the receive takes it at its next step (the
direct hand-over of Go to a waiting receiver, in two moves). -/
def State.send (st : State Event) (c : Nat) (e : Event) : State Event :=
  { st with server := st.server.send c e }

/-- A run of the worker interleaved with sends of producers: the ticks are
performed one after the other. -/
def exec (marshal : Event → Option String) (conn : Conn) :
    List (Tick Event) → State Event → State Event
  | [], st => st
  | Tick.step :: ts, st => exec marshal conn ts (wshandler marshal conn st)
  | Tick.send c e :: ts, st => exec marshal conn ts (st.send c e)

/-- The events sent on the channel referenced by `c` in a run, in order. -/
def sentOn (c : Nat) : List (Tick Event) → List Event
  | [] => []
  | Tick.step :: ts => sentOn c ts
  | Tick.send d e :: ts => if d = c then e :: sentOn c ts else sentOn c ts

/-! ## The process: several workers on one registry -/

/-- The part of the state that is a worker's own: where it stands, what it did
on its connection and the number of its `WriteMessage` calls. -/
structure Worker where
  phase : Phase
  log : List Action
  nwrite : Nat

/-- The process: the shared state, the workers of the connections (one
goroutine of `wshandler` each, numbered) and whether `os.Exit` was called. -/
structure Process (Event : Type) where
  server : Server Event
  workers : Nat → Worker
  exited : Bool

/-- The state the worker of connection `i` runs on: the shared state and what
is its own. -/
def Process.view (p : Process Event) (i : Nat) : State Event :=
  ⟨p.server, (p.workers i).phase, (p.workers i).log, (p.workers i).nwrite⟩

/-- What happens next in the process: the worker of connection `i` takes a
step, or a producer sends `e` on the channel referenced by `c`. -/
inductive PTick (Event : Type) where
  | step (i : Nat)
  | send (c : Nat) (e : Event)
  deriving DecidableEq, Repr

/-- One tick of the process, `conns i` being the connection of worker `i`.
A step is a step of `wshandler` on the worker's view; when it reaches the
`os.Exit(1)` of `exitOnError` the process is gone, and from then on nothing
happens: no worker steps and nothing is sent. -/
def Process.tick (marshal : Event → Option String) (conns : Nat → Conn)
    (p : Process Event) : PTick Event → Process Event
  | PTick.step i =>
    if p.exited then p
    else
      { server := (wshandler marshal (conns i) (p.view i)).server
        workers := Function.update p.workers i
          ⟨(wshandler marshal (conns i) (p.view i)).phase,
            (wshandler marshal (conns i) (p.view i)).log,
            (wshandler marshal (conns i) (p.view i)).nwrite⟩
        exited := decide ((wshandler marshal (conns i) (p.view i)).phase = Phase.exited) }
  | PTick.send c e => if p.exited then p else { p with server := p.server.send c e }

/-- A run of the process: the ticks are performed one after the other. -/
def execProcess (marshal : Event → Option String) (conns : Nat → Conn) :
    List (PTick Event) → Process Event → Process Event
  | [], p => p
  | t :: ts, p => execProcess marshal conns ts (p.tick marshal conns t)

/-- The process when no connection was handled yet. -/
def Process.init (s : Server Event) : Process Event :=
  ⟨s, fun _ => ⟨Phase.connecting, [], 0⟩, false⟩

/-- What the worker `j`, bound to the channel `b`, sees of a tick of the
process: its own steps and the sends on `b`. -/
def PTick.project (j b : Nat) : PTick Event → Option (Tick Event)
  | PTick.step i => if i = j then some Tick.step else none
  | PTick.send c e => if c = b then some (Tick.send c e) else none

/-! ## Invariants of the worker -/

/-- The worker on the way to delivering `encs`: the messages `done` are
written, the events still in the channel `c` and the events `fut` still to be
sent serialise to the others. -/
def Fifo (marshal : Event → Option String) (uuid : String) (c : Nat) (encs : List String)
    (st : State Event) (fut : List Event) : Prop :=
  st.server.channels uuid = some c ∧
  ∃ done todo : List String, encs = done ++ todo ∧
    st.log = done.map (fun b => Action.write b true) ∧ st.nwrite = done.length ∧
    ((st.server.heap c).contents ++ fut).map marshal = todo.map some ∧
    (st.phase = Phase.relaying (some c) ∨
      (done = [] ∧ (st.phase = Phase.connecting ∨ st.phase = Phase.awaitingHandshake ∨
        st.phase = Phase.bound uuid)))

/-- The worker on the way to a failed write: either the messages `done` are
written and the channel `c` still has to deliver the events of the other
messages of `encs`, then `e`, then `rest`; or the write of `b` has failed, the
connection is closed and `rest` is what the channel has and will get. -/
def Failing (marshal : Event → Option String) (uuid : String) (c : Nat)
    (encs : List String) (e : Event) (b : String) (rest : List Event)
    (st : State Event) (fut : List Event) : Prop :=
  st.server.channels uuid = some c ∧
  ((∃ (done todo : List String) (p : List Event), encs = done ++ todo ∧
      st.log = done.map (fun m => Action.write m true) ∧ st.nwrite = done.length ∧
      p.map marshal = todo.map some ∧
      (st.server.heap c).contents ++ fut = p ++ e :: rest ∧
      (st.phase = Phase.relaying (some c) ∨
        (done = [] ∧ (st.phase = Phase.connecting ∨ st.phase = Phase.awaitingHandshake ∨
          st.phase = Phase.bound uuid)))) ∨
    (st.phase = Phase.closed ∧
      st.log = encs.map (fun m => Action.write m true) ++
        [Action.write b false, Action.close] ∧
      st.nwrite = encs.length + 1 ∧
      (st.server.heap c).contents ++ fut = rest))

/-- The states from which the process exit is out of reach when the sends of
`ts` are still to come: the worker has returned, or it is before the loop or in
it, bound to what the registry holds at `uuid`, and every event that its
channel holds or will get serialises. -/
def NoExit (marshal : Event → Option String) (uuid : String) (st : State Event)
    (ts : List (Tick Event)) : Prop :=
  st.phase = Phase.closed ∨
    ((st.phase = Phase.connecting ∨ st.phase = Phase.awaitingHandshake ∨
        st.phase = Phase.bound uuid ∨
        st.phase = Phase.relaying (st.server.channels uuid)) ∧
      ∀ c, st.server.channels uuid = some c →
        ∀ e ∈ (st.server.heap c).contents ++ sentOn c ts, marshal e ≠ none)

/-- A worker whose connection announces `B`, the registry holding the channel
`b` at `B`: it is on its way to the loop on `b`, in it, or past it. -/
def BoundTo (B : String) (b : Nat) (st : State Event) : Prop :=
  st.server.channels B = some b ∧
    (st.phase = Phase.connecting ∨ st.phase = Phase.awaitingHandshake ∨
      st.phase = Phase.bound B ∨ st.phase = Phase.relaying (some b) ∨
      st.phase = Phase.closed ∨ st.phase = Phase.exited)

/-- Two states of such a worker that show the same on the connection and on
the channel `b`. -/
def Agree (B : String) (b : Nat) (st1 st2 : State Event) : Prop :=
  BoundTo B b st1 ∧ BoundTo B b st2 ∧ st1.phase = st2.phase ∧ st1.log = st2.log ∧
    st1.nwrite = st2.nwrite ∧ st1.server.heap b = st2.server.heap b

/-- A worker that is not bound to the channel `b` and has not announced `B`. -/
def Away (B : String) (b : Nat) (w : Worker) : Prop :=
  w.phase ≠ Phase.relaying (some b) ∧ w.phase ≠ Phase.bound B

/-- A process that is still there, seen from the worker `j` of session `B`:
that worker shows the same as the state `st` of a worker alone, no key but `B`
holds the channel `b`, and the other workers are away from `b`. -/
def Isolated (B : String) (b j : Nat) (p : Process Event) (st : State Event) : Prop :=
  p.exited = false ∧ Agree B b (p.view j) st ∧
    (∀ k, p.server.channels k = some b → k = B) ∧
    ∀ i, i ≠ j → Away B b (p.workers i)

/-! ## A sample instance: the events of the end-to-end scenario -/

/-- Sample events: the objects with `x` equal to 1 and to 2, and a value
that `json.Marshal` rejects. -/
inductive SampleEvent where
  | x1
  | x2
  | unsupported
  deriving DecidableEq, Repr

/-- The serialisation of the sample events. -/
def sampleMarshal : SampleEvent → Option String
  | SampleEvent.x1 => some "\x7b\"x\":1\x7d"
  | SampleEvent.x2 => some "\x7b\"x\":2\x7d"
  | SampleEvent.unsupported => none

/-- A connection on which everything succeeds, announcing `id`. -/
def goodConn (id : String) : Conn := ⟨true, some id, fun _ _ => true⟩

/-- A connection announcing `id` whose `j`-th write (counting from 0) and all
later ones fail. -/
def failingConn (id : String) (j : Nat) : Conn := ⟨true, some id, fun n _ => decide (n < j)⟩

/-- The request that creates session `id`. -/
def newSession (id : String) : Request := ⟨"/", some id⟩

/-- Session "S1" just created: nothing was sent on its channel. -/
def freshS1 : Server SampleEvent := (mainHandler Server.empty (newSession "S1")).1

/-- The end-to-end scenario: session "S1" is created and the producer sends
the two events before any worker attaches. -/
def scenario : Server SampleEvent :=
  freshS1.sendAll 0 [SampleEvent.x1, SampleEvent.x2]

/-- The scenario with an event that does not serialise sent on "S1". -/
def scenarioUnsupported : Server SampleEvent :=
  freshS1.sendAll 0 [SampleEvent.unsupported]

/-- A run on "S1": the first event is sent before the worker starts, the
second one while the worker waits in the loop. -/
def scheduleS1 : List (Tick SampleEvent) :=
  [Tick.send 0 SampleEvent.x1, Tick.step, Tick.step, Tick.step, Tick.step,
    Tick.send 0 SampleEvent.x2]

/-- A run on "S1" with a third event sent after the second one. -/
def scheduleThree : List (Tick SampleEvent) :=
  [Tick.send 0 SampleEvent.x1, Tick.step, Tick.step, Tick.step, Tick.step,
    Tick.send 0 SampleEvent.x2, Tick.step, Tick.send 0 SampleEvent.x1]

/-- Sessions "A" (channel 0) and "B" (channel 1), with one event waiting on
the channel of "A". -/
def isolationRun1 : Server SampleEvent :=
  (serveAll Server.empty [newSession "A", newSession "B"]).1.sendAll 0 [SampleEvent.x1]

/-- Sessions "A" (channel 0) and "B" (channel 1), with an event that does not
serialise waiting on the channel of "A". -/
def isolationRunUnsupported : Server SampleEvent :=
  (serveAll Server.empty [newSession "A", newSession "B"]).1.sendAll 0
    [SampleEvent.unsupported]

/-- Sessions "A" (channel 0) and "B" (channel 1), with two events waiting on
the channel of "A". -/
def isolationRunTwo : Server SampleEvent :=
  (serveAll Server.empty [newSession "A", newSession "B"]).1.sendAll 0
    [SampleEvent.x2, SampleEvent.x2]

/-- The connections of the sample process: worker 1 announces "B", every
other worker announces "A"; everything succeeds on them. -/
def isolationConns (i : Nat) : Conn := goodConn (if i = 1 then "B" else "A")

/-- A run of the workers of "A" (worker 0) and "B" (worker 1): two events are
sent on the channel of "B", the worker of "B" attaches and relays the first
one, the worker of "A" attaches and receives what waits on its channel, then
the worker of "B" takes one more step. -/
def isolationTicks : List (PTick SampleEvent) :=
  [PTick.send 1 SampleEvent.x1, PTick.send 1 SampleEvent.x2,
    PTick.step 1, PTick.step 1, PTick.step 1, PTick.step 1,
    PTick.step 0, PTick.step 0, PTick.step 0, PTick.step 0, PTick.step 1]

/-- Another run of the two workers, with the same steps of the worker of "B"
and the same sends on its channel, other steps of the worker of "A" and
another send on the channel of "A". -/
def isolationTicksOther : List (PTick SampleEvent) :=
  [PTick.step 0, PTick.send 1 SampleEvent.x1, PTick.send 1 SampleEvent.x2,
    PTick.step 1, PTick.step 1, PTick.step 1, PTick.step 1,
    PTick.step 0, PTick.step 0, PTick.step 0, PTick.send 0 SampleEvent.x1,
    PTick.step 1, PTick.step 0]

/-! ## Channels: what a send leaves and what a receive delivers -/

theorem Chan.recv_eq_none_iff (c : Chan Event) : c.recv = none ↔ c.contents = [] := by
  rcases c with ⟨cap, buf, sendq⟩
  cases buf <;> cases sendq <;> simp [Chan.recv, Chan.contents]

theorem Chan.recv_of_contents_cons (c : Chan Event) (e : Event) (rest : List Event)
    (h : c.contents = e :: rest) :
    ∃ ch, c.recv = some (e, ch) ∧ ch.contents = rest := by
  rcases c with ⟨cap, buf, sendq⟩
  cases buf with
  | nil =>
    cases sendq with
    | nil => simp [Chan.contents] at h
    | cons p ps =>
      simp only [Chan.contents, List.nil_append, List.cons.injEq] at h
      obtain ⟨rfl, rfl⟩ := h
      exact ⟨_, rfl, rfl⟩
  | cons b bs =>
    simp only [Chan.contents, List.cons_append, List.cons.injEq] at h
    obtain ⟨rfl, rfl⟩ := h
    cases sendq with
    | nil => exact ⟨_, rfl, rfl⟩
    | cons p ps => exact ⟨_, rfl, by simp [Chan.contents]⟩

theorem Chan.send_contents (ch : Chan Event) (e : Event) :
    (ch.send e).1.contents = ch.contents ++ [e] := by
  unfold Chan.send
  split
  · rename_i h
    simp only [Bool.and_eq_true, List.isEmpty_iff] at h
    simp [Chan.contents, h.1]
  · simp [Chan.contents]

theorem State.send_heap_same (st : State Event) (c : Nat) (e : Event) :
    ((st.send c e).server.heap c).contents = (st.server.heap c).contents ++ [e] := by
  simp [State.send, Server.send, Chan.send_contents]

theorem State.send_heap_other (st : State Event) (c d : Nat) (e : Event) (h : c ≠ d) :
    (st.send d e).server.heap c = st.server.heap c := by
  simp [State.send, Server.send, Function.update, h]

theorem Server.sendAll_unbuffered (c : Nat) (es : List Event) : ∀ (s : Server Event)
    (q : List Event), s.heap c = ⟨0, [], q⟩ →
    (s.sendAll c es).heap c = ⟨0, [], q ++ es⟩ ∧ (s.sendAll c es).channels = s.channels := by
  induction es with
  | nil => intro s q h; simpa [Server.sendAll] using h
  | cons e es ih =>
    intro s q h
    have hs : (s.send c e).heap c = ⟨0, [], q ++ [e]⟩ := by
      simp [Server.send, Chan.send, h]
    obtain ⟨h1, h2⟩ := ih (s.send c e) (q ++ [e]) hs
    exact ⟨by simpa [Server.sendAll] using h1, by rw [Server.sendAll, h2]; rfl⟩

/-! ## The worker: single steps, steps that do nothing, composition of runs -/

theorem run_add (marshal : Event → Option String) (conn : Conn) (m n : Nat)
    (st : State Event) :
    run marshal conn (m + n) st = run marshal conn n (run marshal conn m st) := by
  induction m generalizing st with
  | zero => simp [run]
  | succ m ih => rw [Nat.succ_add]; exact ih _

theorem run_of_fixed (marshal : Event → Option String) (conn : Conn) (st : State Event)
    (h : wshandler marshal conn st = st) (n : Nat) : run marshal conn n st = st := by
  induction n with
  | zero => rfl
  | succ n ih => rw [run, h, ih]

theorem wshandler_closed (marshal : Event → Option String) (conn : Conn) (st : State Event)
    (h : st.phase = Phase.closed) : wshandler marshal conn st = st := by
  simp [wshandler, h]

theorem wshandler_exited (marshal : Event → Option String) (conn : Conn) (st : State Event)
    (h : st.phase = Phase.exited) : wshandler marshal conn st = st := by
  simp [wshandler, h]

theorem wshandler_nil (marshal : Event → Option String) (conn : Conn) (st : State Event)
    (h : st.phase = Phase.relaying none) : wshandler marshal conn st = st := by
  simp [wshandler, h]

theorem wshandler_blocked (marshal : Event → Option String) (conn : Conn) (st : State Event)
    (c : Nat) (h : st.phase = Phase.relaying (some c))
    (he : (st.server.heap c).contents = []) : wshandler marshal conn st = st := by
  have hr := (Chan.recv_eq_none_iff _).2 he
  simp [wshandler, h, hr]

/-- The first three steps of a worker whose upgrade and handshake succeed. -/
theorem run_three (marshal : Event → Option String) (conn : Conn) (s : Server Event)
    (uuid : String) (hup : conn.upgradeOk = true) (hrd : conn.readMessage = some uuid) :
    run marshal conn 3 (State.init s) = ⟨s, Phase.relaying (s.channels uuid), [], 0⟩ := by
  simp [run, wshandler, State.init, hup, hrd, exitOnError]

/-- One turn of the loop on an event that serialises and whose write succeeds. -/
theorem wshandler_relay_ok (marshal : Event → Option String) (conn : Conn) (st : State Event)
    (c : Nat) (e : Event) (rest : List Event) (b : String)
    (h : st.phase = Phase.relaying (some c))
    (he : (st.server.heap c).contents = e :: rest)
    (hm : marshal e = some b) (hw : conn.writeOk st.nwrite b = true) :
    ∃ ch, ch.contents = rest ∧
      wshandler marshal conn st =
        ⟨{ st.server with heap := Function.update st.server.heap c ch },
          Phase.relaying (some c), st.log ++ [Action.write b true], st.nwrite + 1⟩ := by
  obtain ⟨ch, hr, hc⟩ := Chan.recv_of_contents_cons _ e rest he
  refine ⟨ch, hc, ?_⟩
  simp [wshandler, h, hr, hm, hw, exitOnError]

/-- One turn of the loop on an event that serialises and whose write fails. -/
theorem wshandler_relay_fail (marshal : Event → Option String) (conn : Conn) (st : State Event)
    (c : Nat) (e : Event) (rest : List Event) (b : String)
    (h : st.phase = Phase.relaying (some c))
    (he : (st.server.heap c).contents = e :: rest)
    (hm : marshal e = some b) (hw : conn.writeOk st.nwrite b = false) :
    ∃ ch, ch.contents = rest ∧
      wshandler marshal conn st =
        ⟨{ st.server with heap := Function.update st.server.heap c ch },
          Phase.closed, st.log ++ [Action.write b false, Action.close], st.nwrite + 1⟩ := by
  obtain ⟨ch, hr, hc⟩ := Chan.recv_of_contents_cons _ e rest he
  refine ⟨ch, hc, ?_⟩
  simp [wshandler, h, hr, hm, hw]

/-- The loop on a run of events that all serialise and whose writes all
succeed: one step per event, one message per event, in order; only the bound
channel changes. -/
theorem run_relay_prefix (marshal : Event → Option String) (conn : Conn) (c : Nat)
    (pre : List Event) : ∀ (encs : List String) (rest : List Event) (st : State Event),
    st.phase = Phase.relaying (some c) →
    (st.server.heap c).contents = pre ++ rest →
    pre.map marshal = encs.map some →
    (∀ i b, encs.get? i = some b → conn.writeOk (st.nwrite + i) b = true) →
    (run marshal conn pre.length st).phase = Phase.relaying (some c) ∧
    (run marshal conn pre.length st).log = st.log ++ encs.map (fun b => Action.write b true) ∧
    (run marshal conn pre.length st).nwrite = st.nwrite + pre.length ∧
    ((run marshal conn pre.length st).server.heap c).contents = rest ∧
    (run marshal conn pre.length st).server.channels = st.server.channels ∧
    (∀ d, d ≠ c → (run marshal conn pre.length st).server.heap d = st.server.heap d) := by
  induction pre with
  | nil =>
    intro encs rest st h he hm _
    cases encs with
    | nil => simpa [run] using ⟨h, he⟩
    | cons b bs => simp at hm
  | cons e pre ih =>
    intro encs rest st h he hm hw
    cases encs with
    | nil => simp at hm
    | cons b bs =>
      simp only [List.map_cons, List.cons.injEq] at hm
      obtain ⟨ch, hc, hstep⟩ := wshandler_relay_ok marshal conn st c e (pre ++ rest) b h
        (by simpa using he) hm.1 (by simpa using hw 0 b rfl)
      have := ih bs rest (wshandler marshal conn st) (by rw [hstep])
        (by rw [hstep]; simpa using hc) hm.2
        (by
          intro i b2 hi
          rw [hstep]
          have := hw (i + 1) b2 (by simpa using hi)
          simpa [Nat.add_assoc, Nat.add_comm 1 i] using this)
      obtain ⟨h1, h2, h3, h4, h5, h6⟩ := this
      simp only [List.length_cons, run]
      refine ⟨h1, ?_, ?_, h4, ?_, ?_⟩
      · rw [h2, hstep]; simp
      · rw [h3, hstep]; simp [Nat.add_assoc, Nat.add_comm 1]
      · rw [h5, hstep]
      · intro d hd
        rw [h6 d hd, hstep]
        simp [Function.update, hd]

theorem wshandler_channels (marshal : Event → Option String) (conn : Conn)
    (st : State Event) :
    (wshandler marshal conn st).server.channels = st.server.channels ∧
      (wshandler marshal conn st).server.next = st.server.next := by
  unfold wshandler
  split
  · exact ⟨rfl, rfl⟩
  · split <;> exact ⟨rfl, rfl⟩
  · exact ⟨rfl, rfl⟩
  · exact ⟨rfl, rfl⟩
  · split
    · exact ⟨rfl, rfl⟩
    · dsimp only
      split
      · exact ⟨rfl, rfl⟩
      · split <;> exact ⟨rfl, rfl⟩
  · exact ⟨rfl, rfl⟩
  · exact ⟨rfl, rfl⟩

theorem exec_channels (marshal : Event → Option String) (conn : Conn)
    (ts : List (Tick Event)) : ∀ st : State Event,
    (exec marshal conn ts st).server.channels = st.server.channels ∧
      (exec marshal conn ts st).server.next = st.server.next := by
  induction ts with
  | nil => intro st; exact ⟨rfl, rfl⟩
  | cons t ts ih =>
    intro st
    cases t with
    | step =>
      have h1 := ih (wshandler marshal conn st)
      have h2 := wshandler_channels marshal conn st
      exact ⟨h1.1.trans h2.1, h1.2.trans h2.2⟩
    | send d e => exact ih (st.send d e)

theorem run_channels (marshal : Event → Option String) (conn : Conn)
    (n : Nat) : ∀ st : State Event,
    (run marshal conn n st).server.channels = st.server.channels ∧
      (run marshal conn n st).server.next = st.server.next := by
  induction n with
  | zero => intro st; exact ⟨rfl, rfl⟩
  | succ n ih =>
    intro st
    have h1 := ih (wshandler marshal conn st)
    have h2 := wshandler_channels marshal conn st
    exact ⟨h1.1.trans h2.1, h1.2.trans h2.2⟩

/-- A step changes no channel but the one the worker is bound to. -/
theorem wshandler_heap_other (marshal : Event → Option String) (conn : Conn)
    (st : State Event) (d : Nat) (h : st.phase ≠ Phase.relaying (some d)) :
    (wshandler marshal conn st).server.heap d = st.server.heap d := by
  unfold wshandler
  split
  · rfl
  · split <;> rfl
  · rfl
  · rfl
  · rename_i c hc
    have hcd : d ≠ c := fun e => h (e ▸ hc)
    split
    · rfl
    · dsimp only
      split
      · simp [Function.update, hcd]
      · split <;> simp [Function.update, hcd]
  · rfl
  · rfl

theorem Phase.toLoop_le (p : Phase) : p.toLoop ≤ 3 := by
  cases p <;> simp [Phase.toLoop]

/-! ## FIFO delivery -/

theorem fifo_step (marshal : Event → Option String) (conn : Conn) (uuid : String) (c : Nat)
    (encs : List String) (hup : conn.upgradeOk = true) (hrd : conn.readMessage = some uuid)
    (hw : ∀ i b, i < encs.length → conn.writeOk i b = true)
    (st : State Event) (fut : List Event) (h : Fifo marshal uuid c encs st fut) :
    Fifo marshal uuid c encs (wshandler marshal conn st) fut ∧
      (wshandler marshal conn st).phase.toLoop = st.phase.toLoop - 1 := by
  obtain ⟨hreg, done, todo, henc, hlog, hn, hmap, hph⟩ := h
  rcases hph with hph | ⟨hd, hph | hph | hph⟩
  · cases hc : (st.server.heap c).contents with
    | nil =>
      rw [wshandler_blocked marshal conn st c hph hc]
      exact ⟨⟨hreg, done, todo, henc, hlog, hn, hmap, Or.inl hph⟩, by rw [hph]; rfl⟩
    | cons e r =>
      rw [hc] at hmap
      cases todo with
      | nil => simp at hmap
      | cons b todo =>
        simp only [List.cons_append, List.map_cons, List.cons.injEq] at hmap
        have hlt : st.nwrite < encs.length := by rw [henc, hn]; simp
        obtain ⟨ch, hch, hstep⟩ := wshandler_relay_ok marshal conn st c e r b hph hc hmap.1
          (hw _ b hlt)
        rw [hstep]
        refine ⟨⟨hreg, done ++ [b], todo, by simp [henc], by simp [hlog], by simp [hn], ?_,
          Or.inl rfl⟩, by rw [hph]; rfl⟩
        simpa [hch] using hmap.2
  · have : wshandler marshal conn st = { st with phase := Phase.awaitingHandshake } := by
      simp [wshandler, hph, hup, exitOnError]
    rw [this]
    exact ⟨⟨hreg, done, todo, henc, hlog, hn, hmap, Or.inr ⟨hd, Or.inr (Or.inl rfl)⟩⟩,
      by rw [hph]; rfl⟩
  · have : wshandler marshal conn st = { st with phase := Phase.bound uuid } := by
      simp [wshandler, hph, hrd, exitOnError]
    rw [this]
    exact ⟨⟨hreg, done, todo, henc, hlog, hn, hmap, Or.inr ⟨hd, Or.inr (Or.inr rfl)⟩⟩,
      by rw [hph]; rfl⟩
  · have : wshandler marshal conn st = { st with phase := Phase.relaying (some c) } := by
      simp [wshandler, hph, hreg]
    rw [this]
    exact ⟨⟨hreg, done, todo, henc, hlog, hn, hmap, Or.inl rfl⟩, by rw [hph]; rfl⟩

theorem fifo_send (marshal : Event → Option String) (uuid : String) (c d : Nat)
    (encs : List String) (st : State Event) (e : Event) (fut : List Event)
    (h : Fifo marshal uuid c encs st (if d = c then e :: fut else fut)) :
    Fifo marshal uuid c encs (st.send d e) fut := by
  obtain ⟨hreg, done, todo, henc, hlog, hn, hmap, hph⟩ := h
  refine ⟨hreg, done, todo, henc, hlog, hn, ?_, hph⟩
  by_cases hd : d = c
  · subst hd
    rw [State.send_heap_same]
    simpa using hmap
  · rw [State.send_heap_other st c d e (Ne.symm hd)]
    simpa [hd] using hmap

theorem fifo_exec (marshal : Event → Option String) (conn : Conn) (uuid : String) (c : Nat)
    (encs : List String) (hup : conn.upgradeOk = true) (hrd : conn.readMessage = some uuid)
    (hw : ∀ i b, i < encs.length → conn.writeOk i b = true)
    (ts : List (Tick Event)) : ∀ (st : State Event) (fut : List Event),
    Fifo marshal uuid c encs st (sentOn c ts ++ fut) →
    Fifo marshal uuid c encs (exec marshal conn ts st) fut := by
  induction ts with
  | nil => intro st fut h; simpa [sentOn, exec] using h
  | cons t ts ih =>
    intro st fut h
    cases t with
    | step =>
      exact ih _ fut (fifo_step marshal conn uuid c encs hup hrd hw st _ h).1
    | send d e =>
      apply ih _ fut
      apply fifo_send
      by_cases hd : d = c
      · simpa [sentOn, hd] using h
      · simpa [sentOn, hd] using h

theorem fifo_run (marshal : Event → Option String) (conn : Conn) (uuid : String) (c : Nat)
    (encs : List String) (hup : conn.upgradeOk = true) (hrd : conn.readMessage = some uuid)
    (hw : ∀ i b, i < encs.length → conn.writeOk i b = true)
    (n : Nat) : ∀ (st : State Event), Fifo marshal uuid c encs st [] →
    Fifo marshal uuid c encs (run marshal conn n st) [] ∧
      (run marshal conn n st).phase.toLoop = st.phase.toLoop - n := by
  induction n with
  | zero => intro st h; exact ⟨h, rfl⟩
  | succ n ih =>
    intro st h
    obtain ⟨h1, h2⟩ := fifo_step marshal conn uuid c encs hup hrd hw st [] h
    obtain ⟨h3, h4⟩ := ih _ h1
    refine ⟨h3, ?_⟩
    show (run marshal conn n (wshandler marshal conn st)).phase.toLoop = _
    rw [h4, h2]
    omega

/-- Once nothing more is sent, the worker delivers what is left and waits. -/
theorem fifo_drain (marshal : Event → Option String) (conn : Conn) (uuid : String) (c : Nat)
    (encs : List String) (hup : conn.upgradeOk = true) (hrd : conn.readMessage = some uuid)
    (hw : ∀ i b, i < encs.length → conn.writeOk i b = true)
    (st : State Event) (h : Fifo marshal uuid c encs st []) (n : Nat)
    (hn : encs.length + 3 ≤ n) :
    (run marshal conn n st).log = encs.map (fun b => Action.write b true) ∧
      (run marshal conn n st).nwrite = encs.length ∧
      (run marshal conn n st).phase = Phase.relaying (some c) ∧
      ((run marshal conn n st).server.heap c).contents = [] := by
  obtain ⟨h3, hloop⟩ := fifo_run marshal conn uuid c encs hup hrd hw 3 st h
  obtain ⟨-, done, todo, henc, hlog, hnw, hmap, hph⟩ := h3
  have hrel : (run marshal conn 3 st).phase = Phase.relaying (some c) := by
    rcases hph with hph | ⟨-, hph | hph | hph⟩
    · exact hph
    · rw [hph] at hloop
      have e : Phase.connecting.toLoop = 3 := rfl
      have := Phase.toLoop_le st.phase
      omega
    · rw [hph] at hloop
      have e : Phase.awaitingHandshake.toLoop = 2 := rfl
      have := Phase.toLoop_le st.phase
      omega
    · rw [hph] at hloop
      have e : (Phase.bound uuid).toLoop = 1 := rfl
      have := Phase.toLoop_le st.phase
      omega
  simp only [List.append_nil] at hmap
  have hlen : todo.length = ((run marshal conn 3 st).server.heap c).contents.length := by
    have := congrArg List.length hmap
    simpa using this.symm
  obtain ⟨k, rfl⟩ : ∃ k,
      n = 3 + (((run marshal conn 3 st).server.heap c).contents.length + k) :=
    ⟨n - (3 + ((run marshal conn 3 st).server.heap c).contents.length), by
      have : encs.length = done.length + todo.length := by rw [henc]; simp
      omega⟩
  rw [run_add, run_add]
  obtain ⟨h1, h2, h3', h4, -, -⟩ := run_relay_prefix marshal conn c
    ((run marshal conn 3 st).server.heap c).contents todo [] (run marshal conn 3 st) hrel
    (by simp) hmap
    (by
      intro i b hi
      have hlt : i < todo.length := by
        rcases Nat.lt_or_ge i todo.length with h | h
        · exact h
        · rw [List.get?_eq_none.2 h] at hi; cases hi
      apply hw
      rw [henc, hnw]
      simp
      omega)
  rw [run_of_fixed marshal conn _ (wshandler_blocked marshal conn _ c h1 h4) k]
  refine ⟨?_, ?_, h1, h4⟩
  · rw [h2, hlog, henc]; simp
  · rw [h3', hnw, henc, ← hlen]; simp

/-- C1: FIFO delivery by the relay loop. Take any run in which the steps of the
worker are interleaved with sends of producers. When the upgrade and the
handshake succeed, the announced identifier is bound to channel `c`, the
events `es` that `c` delivers (those it holds at the start, then those sent on
it during the run, in order) all serialise (to `encs`, in the same order) and
every write succeeds, then once the worker has taken `es.length + 3` further
steps it has written exactly the messages `encs`, one per event and in the
order of the events, every write successful, and it waits in the loop on the
emptied channel. -/
theorem wshandler_fifo_delivery (marshal : Event → Option String) (conn : Conn)
    (s : Server Event) (uuid : String) (c : Nat) (ts : List (Tick Event))
    (es : List Event) (encs : List String)
    (hup : conn.upgradeOk = true) (hrd : conn.readMessage = some uuid)
    (hreg : s.channels uuid = some c)
    (hes : (s.heap c).contents ++ sentOn c ts = es)
    (hm : es.map marshal = encs.map some)
    (hw : ∀ i b, i < es.length → conn.writeOk i b = true) :
    ∀ n, es.length + 3 ≤ n →
      (run marshal conn n (exec marshal conn ts (State.init s))).log =
        encs.map (fun b => Action.write b true) ∧
      (run marshal conn n (exec marshal conn ts (State.init s))).nwrite = es.length ∧
      encs.length = es.length ∧
      (run marshal conn n (exec marshal conn ts (State.init s))).phase =
        Phase.relaying (some c) ∧
      ((run marshal conn n (exec marshal conn ts (State.init s))).server.heap c).contents
        = [] := by
  intro n hn
  have hlen : encs.length = es.length := by
    have := congrArg List.length hm
    simpa using this.symm
  have hw2 : ∀ i b, i < encs.length → conn.writeOk i b = true := by
    intro i b hi; exact hw i b (hlen ▸ hi)
  have h0 : Fifo marshal uuid c encs (State.init s) (sentOn c ts ++ []) :=
    ⟨hreg, [], encs, rfl, rfl, rfl, by simpa [State.init, hes] using hm,
      Or.inr ⟨rfl, Or.inl rfl⟩⟩
  have h1 := fifo_exec marshal conn uuid c encs hup hrd hw2 ts _ [] h0
  obtain ⟨a1, a2, a3, a4⟩ := fifo_drain marshal conn uuid c encs hup hrd hw2 _ h1 n
    (by omega)
  exact ⟨a1, by rw [a2, hlen], hlen, a3, a4⟩

/-- The end-to-end scenario: the two events sent on "S1" arrive as the two
messages encoding them, in that order. -/
theorem wshandler_fifo_delivery_witness :
    (run sampleMarshal (goodConn "S1") 5
        (exec sampleMarshal (goodConn "S1") scheduleS1 (State.init freshS1))).log =
        ["\x7b\"x\":1\x7d", "\x7b\"x\":2\x7d"].map (fun b => Action.write b true) ∧
      (run sampleMarshal (goodConn "S1") 5
        (exec sampleMarshal (goodConn "S1") scheduleS1 (State.init freshS1))).nwrite = 2 ∧
      ["\x7b\"x\":1\x7d", "\x7b\"x\":2\x7d"].length = 2 ∧
      (run sampleMarshal (goodConn "S1") 5
        (exec sampleMarshal (goodConn "S1") scheduleS1 (State.init freshS1))).phase =
        Phase.relaying (some 0) ∧
      ((run sampleMarshal (goodConn "S1") 5
        (exec sampleMarshal (goodConn "S1") scheduleS1
          (State.init freshS1))).server.heap 0).contents = [] :=
  wshandler_fifo_delivery sampleMarshal (goodConn "S1") freshS1 "S1" 0 scheduleS1
    [SampleEvent.x1, SampleEvent.x2] ["\x7b\"x\":1\x7d", "\x7b\"x\":2\x7d"]
    rfl rfl (by decide) (by decide) (by decide) (fun _ _ _ => rfl) 5 (by decide)

/-! ## A failed write -/

theorem failing_step (marshal : Event → Option String) (conn : Conn) (uuid : String)
    (c : Nat) (encs : List String) (e : Event) (b : String) (rest : List Event)
    (hup : conn.upgradeOk = true) (hrd : conn.readMessage = some uuid)
    (hw : ∀ i m, i < encs.length → conn.writeOk i m = true)
    (hme : marshal e = some b) (hf : conn.writeOk encs.length b = false)
    (st : State Event) (fut : List Event)
    (h : Failing marshal uuid c encs e b rest st fut) :
    Failing marshal uuid c encs e b rest (wshandler marshal conn st) fut ∧
      (wshandler marshal conn st).phase.toLoop = st.phase.toLoop - 1 := by
  obtain ⟨hreg, h⟩ := h
  rcases h with ⟨done, todo, p, henc, hlog, hn, hmap, hcont, hph⟩ | ⟨hph, hlog, hn, hcont⟩
  · rcases hph with hph | ⟨hd, hph | hph | hph⟩
    · cases hc : (st.server.heap c).contents with
      | nil =>
        rw [wshandler_blocked marshal conn st c hph hc]
        exact ⟨⟨hreg, Or.inl ⟨done, todo, p, henc, hlog, hn, hmap, hcont, Or.inl hph⟩⟩,
          by rw [hph]; rfl⟩
      | cons x r =>
        rw [hc] at hcont
        cases p with
        | nil =>
          simp only [List.cons_append, List.nil_append, List.cons.injEq] at hcont
          obtain ⟨rfl, hrest⟩ := hcont
          have htodo : todo = [] := by
            cases todo with
            | nil => rfl
            | cons _ _ => simp at hmap
          subst htodo
          simp only [List.append_nil] at henc
          subst henc
          obtain ⟨ch, hch, hstep⟩ := wshandler_relay_fail marshal conn st c x r b hph hc hme
            (by rw [hn]; exact hf)
          rw [hstep]
          exact ⟨⟨hreg, Or.inr ⟨rfl, by simp [hlog], by simp [hn], by simpa [hch] using hrest⟩⟩,
            by rw [hph]; rfl⟩
        | cons y p =>
          simp only [List.cons_append, List.cons.injEq] at hcont
          obtain ⟨rfl, hrest⟩ := hcont
          cases todo with
          | nil => simp at hmap
          | cons m todo =>
            simp only [List.map_cons, List.cons.injEq] at hmap
            have hlt : st.nwrite < encs.length := by rw [henc, hn]; simp
            obtain ⟨ch, hch, hstep⟩ := wshandler_relay_ok marshal conn st c x r m hph hc
              hmap.1 (hw _ m hlt)
            rw [hstep]
            exact ⟨⟨hreg, Or.inl ⟨done ++ [m], todo, p, by simp [henc], by simp [hlog],
              by simp [hn], hmap.2, by simpa [hch] using hrest, Or.inl rfl⟩⟩,
              by rw [hph]; rfl⟩
    · have : wshandler marshal conn st = { st with phase := Phase.awaitingHandshake } := by
        simp [wshandler, hph, hup, exitOnError]
      rw [this]
      exact ⟨⟨hreg, Or.inl ⟨done, todo, p, henc, hlog, hn, hmap, hcont,
        Or.inr ⟨hd, Or.inr (Or.inl rfl)⟩⟩⟩, by rw [hph]; rfl⟩
    · have : wshandler marshal conn st = { st with phase := Phase.bound uuid } := by
        simp [wshandler, hph, hrd, exitOnError]
      rw [this]
      exact ⟨⟨hreg, Or.inl ⟨done, todo, p, henc, hlog, hn, hmap, hcont,
        Or.inr ⟨hd, Or.inr (Or.inr rfl)⟩⟩⟩, by rw [hph]; rfl⟩
    · have : wshandler marshal conn st = { st with phase := Phase.relaying (some c) } := by
        simp [wshandler, hph, hreg]
      rw [this]
      exact ⟨⟨hreg, Or.inl ⟨done, todo, p, henc, hlog, hn, hmap, hcont, Or.inl rfl⟩⟩,
        by rw [hph]; rfl⟩
  · rw [wshandler_closed marshal conn st hph]
    exact ⟨⟨hreg, Or.inr ⟨hph, hlog, hn, hcont⟩⟩, by rw [hph]; rfl⟩

theorem failing_send (marshal : Event → Option String) (uuid : String) (c d : Nat)
    (encs : List String) (e : Event) (b : String) (rest : List Event)
    (st : State Event) (x : Event) (fut : List Event)
    (h : Failing marshal uuid c encs e b rest st (if d = c then x :: fut else fut)) :
    Failing marshal uuid c encs e b rest (st.send d x) fut := by
  have hcont : ((st.send d x).server.heap c).contents ++ fut =
      (st.server.heap c).contents ++ (if d = c then x :: fut else fut) := by
    by_cases hd : d = c
    · subst hd
      rw [State.send_heap_same]
      simp
    · rw [State.send_heap_other st c d x (Ne.symm hd)]
      simp [hd]
  obtain ⟨hreg, h⟩ := h
  refine ⟨hreg, ?_⟩
  rcases h with ⟨done, todo, p, henc, hlog, hn, hmap, hc, hph⟩ | ⟨hph, hlog, hn, hc⟩
  · exact Or.inl ⟨done, todo, p, henc, hlog, hn, hmap, hcont.trans hc, hph⟩
  · exact Or.inr ⟨hph, hlog, hn, hcont.trans hc⟩

theorem failing_exec (marshal : Event → Option String) (conn : Conn) (uuid : String)
    (c : Nat) (encs : List String) (e : Event) (b : String) (rest : List Event)
    (hup : conn.upgradeOk = true) (hrd : conn.readMessage = some uuid)
    (hw : ∀ i m, i < encs.length → conn.writeOk i m = true)
    (hme : marshal e = some b) (hf : conn.writeOk encs.length b = false)
    (ts : List (Tick Event)) : ∀ (st : State Event) (fut : List Event),
    Failing marshal uuid c encs e b rest st (sentOn c ts ++ fut) →
    Failing marshal uuid c encs e b rest (exec marshal conn ts st) fut := by
  induction ts with
  | nil => intro st fut h; simpa [sentOn, exec] using h
  | cons t ts ih =>
    intro st fut h
    cases t with
    | step =>
      exact ih _ fut (failing_step marshal conn uuid c encs e b rest hup hrd hw hme hf st _ h).1
    | send d x =>
      apply ih _ fut
      apply failing_send
      by_cases hd : d = c
      · simpa [sentOn, hd] using h
      · simpa [sentOn, hd] using h

theorem failing_run (marshal : Event → Option String) (conn : Conn) (uuid : String)
    (c : Nat) (encs : List String) (e : Event) (b : String) (rest : List Event)
    (hup : conn.upgradeOk = true) (hrd : conn.readMessage = some uuid)
    (hw : ∀ i m, i < encs.length → conn.writeOk i m = true)
    (hme : marshal e = some b) (hf : conn.writeOk encs.length b = false)
    (n : Nat) : ∀ (st : State Event), Failing marshal uuid c encs e b rest st [] →
    Failing marshal uuid c encs e b rest (run marshal conn n st) [] ∧
      (run marshal conn n st).phase.toLoop = st.phase.toLoop - n := by
  induction n with
  | zero => intro st h; exact ⟨h, rfl⟩
  | succ n ih =>
    intro st h
    obtain ⟨h1, h2⟩ := failing_step marshal conn uuid c encs e b rest hup hrd hw hme hf st [] h
    obtain ⟨h3, h4⟩ := ih _ h1
    refine ⟨h3, ?_⟩
    show (run marshal conn n (wshandler marshal conn st)).phase.toLoop = _
    rw [h4, h2]
    omega

/-- Once nothing more is sent, the worker reaches the failed write and
returns. -/
theorem failing_drain (marshal : Event → Option String) (conn : Conn) (uuid : String)
    (c : Nat) (encs : List String) (e : Event) (b : String) (rest : List Event)
    (hup : conn.upgradeOk = true) (hrd : conn.readMessage = some uuid)
    (hw : ∀ i m, i < encs.length → conn.writeOk i m = true)
    (hme : marshal e = some b) (hf : conn.writeOk encs.length b = false)
    (st : State Event) (h : Failing marshal uuid c encs e b rest st []) (n : Nat)
    (hn : encs.length + 4 ≤ n) :
    (run marshal conn n st).log =
        encs.map (fun m => Action.write m true) ++ [Action.write b false, Action.close] ∧
      (run marshal conn n st).nwrite = encs.length + 1 ∧
      (run marshal conn n st).phase = Phase.closed ∧
      ((run marshal conn n st).server.heap c).contents = rest := by
  obtain ⟨⟨-, h1⟩, hloop⟩ :=
    failing_run marshal conn uuid c encs e b rest hup hrd hw hme hf 3 st h
  have hone : ∀ x : State Event, run marshal conn 1 x = wshandler marshal conn x :=
    fun _ => rfl
  rcases h1 with ⟨done, todo, p, henc, hlog, hnw, hmap, hcont, hph⟩ | ⟨hph, hlog, hnw, hcont⟩
  · have hrel : (run marshal conn 3 st).phase = Phase.relaying (some c) := by
      rcases hph with hph | ⟨-, hph | hph | hph⟩
      · exact hph
      · rw [hph] at hloop
        have e : Phase.connecting.toLoop = 3 := rfl
        have := Phase.toLoop_le st.phase
        omega
      · rw [hph] at hloop
        have e : Phase.awaitingHandshake.toLoop = 2 := rfl
        have := Phase.toLoop_le st.phase
        omega
      · rw [hph] at hloop
        have e : (Phase.bound uuid).toLoop = 1 := rfl
        have := Phase.toLoop_le st.phase
        omega
    simp only [List.append_nil] at hcont
    have hlen : todo.length = p.length := by
      have := congrArg List.length hmap
      simpa using this.symm
    have hlen2 : encs.length = done.length + todo.length := by rw [henc]; simp
    obtain ⟨k, rfl⟩ : ∃ k, n = 3 + (p.length + (1 + k)) :=
      ⟨n - (3 + (p.length + 1)), by omega⟩
    rw [run_add, run_add, run_add]
    obtain ⟨a1, a2, a3, a4, -, -⟩ := run_relay_prefix marshal conn c p todo (e :: rest)
      (run marshal conn 3 st) hrel hcont hmap
      (by
        intro i m hi
        have hlt : i < todo.length := by
          rcases Nat.lt_or_ge i todo.length with h | h
          · exact h
          · rw [List.get?_eq_none.2 h] at hi; cases hi
        apply hw
        omega)
    obtain ⟨ch, hch, hstep⟩ := wshandler_relay_fail marshal conn _ c e rest b a1 a4 hme
      (by rw [a3, hnw, ← hlen, ← hlen2]; exact hf)
    rw [hone, hstep, run_of_fixed marshal conn _ (wshandler_closed marshal conn _ rfl) k]
    refine ⟨?_, ?_, rfl, ?_⟩
    · simp [a2, hlog, henc]
    · simp [a3, hnw, hlen2, hlen]
    · simpa using hch
  · obtain ⟨k, rfl⟩ : ∃ k, n = 3 + k := ⟨n - 3, by omega⟩
    rw [run_add, run_of_fixed marshal conn _ (wshandler_closed marshal conn _ hph) k]
    exact ⟨hlog, hnw, hph, by simpa using hcont⟩

/-- C5: a write failure is terminal and is not retried. Take any run in which
the steps of the worker are interleaved with sends of producers. When the
upgrade and the handshake succeed, the bound channel `c` delivers `pre`, then
`e`, then `rest` (what it holds at the start, then what is sent on it during
the run), the events of `pre` and `e` serialise, the first `pre.length` writes
succeed and the next one (of the message of `e`) fails, then once the worker
has taken `pre.length + 4` further steps it has made exactly `pre.length + 1`
write attempts, the messages of `pre` in order and then the failed one, once;
it has closed the connection once, as its last action, and has returned; the
events `rest` are still in the channel, none of them received. -/
theorem wshandler_write_failure_terminal (marshal : Event → Option String) (conn : Conn)
    (s : Server Event) (uuid : String) (c : Nat) (ts : List (Tick Event))
    (pre : List Event) (e : Event)
    (rest : List Event) (encs : List String) (b : String)
    (hup : conn.upgradeOk = true) (hrd : conn.readMessage = some uuid)
    (hreg : s.channels uuid = some c)
    (hes : (s.heap c).contents ++ sentOn c ts = pre ++ e :: rest)
    (hm : pre.map marshal = encs.map some) (hme : marshal e = some b)
    (hw : ∀ i m, i < pre.length → conn.writeOk i m = true)
    (hf : conn.writeOk pre.length b = false) :
    ∀ n, pre.length + 4 ≤ n →
      (run marshal conn n (exec marshal conn ts (State.init s))).log =
        encs.map (fun m => Action.write m true) ++ [Action.write b false, Action.close] ∧
      (run marshal conn n (exec marshal conn ts (State.init s))).nwrite = pre.length + 1 ∧
      (run marshal conn n (exec marshal conn ts (State.init s))).phase = Phase.closed ∧
      ((run marshal conn n (exec marshal conn ts (State.init s))).server.heap c).contents
        = rest := by
  intro n hn
  have hlen : encs.length = pre.length := by
    have := congrArg List.length hm
    simpa using this.symm
  have h0 : Failing marshal uuid c encs e b rest (State.init s) (sentOn c ts ++ []) :=
    ⟨hreg, Or.inl ⟨[], encs, pre, rfl, rfl, rfl, hm, by simpa [State.init] using hes,
      Or.inr ⟨rfl, Or.inl rfl⟩⟩⟩
  have hw2 : ∀ i m, i < encs.length → conn.writeOk i m = true :=
    fun i m hi => hw i m (hlen ▸ hi)
  have h1 := failing_exec marshal conn uuid c encs e b rest hup hrd hw2 hme (hlen ▸ hf)
    ts _ [] h0
  obtain ⟨a1, a2, a3, a4⟩ := failing_drain marshal conn uuid c encs e b rest hup hrd hw2 hme
    (hlen ▸ hf) _ h1 n (by omega)
  exact ⟨a1, by rw [a2, hlen], a3, a4⟩

/-- On "S1" with the second write failing: the first event is written, the
write of the second fails once, the connection is closed, and the third event
stays in the channel. -/
theorem wshandler_write_failure_terminal_witness :
    (run sampleMarshal (failingConn "S1" 1) 5
        (exec sampleMarshal (failingConn "S1" 1) scheduleThree (State.init freshS1))).log =
        ["\x7b\"x\":1\x7d"].map (fun m => Action.write m true) ++
          [Action.write "\x7b\"x\":2\x7d" false, Action.close] ∧
      (run sampleMarshal (failingConn "S1" 1) 5
        (exec sampleMarshal (failingConn "S1" 1) scheduleThree
          (State.init freshS1))).nwrite = 1 + 1 ∧
      (run sampleMarshal (failingConn "S1" 1) 5
        (exec sampleMarshal (failingConn "S1" 1) scheduleThree
          (State.init freshS1))).phase = Phase.closed ∧
      ((run sampleMarshal (failingConn "S1" 1) 5
        (exec sampleMarshal (failingConn "S1" 1) scheduleThree
          (State.init freshS1))).server.heap 0).contents = [SampleEvent.x1] :=
  wshandler_write_failure_terminal sampleMarshal (failingConn "S1" 1) freshS1 "S1" 0
    scheduleThree [SampleEvent.x1] SampleEvent.x2 [SampleEvent.x1] ["\x7b\"x\":1\x7d"]
    "\x7b\"x\":2\x7d" rfl rfl (by decide) (by decide) (by decide) (by decide)
    (fun i _ hi => by simpa [failingConn] using hi) (by decide) 5 (by decide)

/-! ## The registry -/

/-- What `mainHandler` does, by cases on what the generator is asked. -/
theorem mainHandler_cases (s : Server Event) (r : Request) :
    (r.generated = none ∧ mainHandler s r = (s, none)) ∨
    ∃ id, r.generated = some id ∧
      mainHandler s r =
        (⟨Function.update s.channels id (some s.next),
            Function.update s.heap s.next makeChan, s.next + 1⟩,
          some ⟨id, s.next, some s.next⟩) := by
  unfold mainHandler Request.generated
  by_cases hp : r.path ≠ "/"
  · left; simp [hp]
  · cases hg : r.gen with
    | none => left; simp [hp]
    | some id => right; exact ⟨id, by simp [hp], by simp [hp]⟩

theorem createdIds_cons (s : Server Event) (r : Request) (rs : List Request) :
    createdIds s (r :: rs) =
      r.generated.toList ++ createdIds (mainHandler s r).1 rs := by
  rcases mainHandler_cases s r with ⟨hg, h⟩ | ⟨id, hg, h⟩ <;>
    simp [createdIds, serveAll, h, hg]

/-- The identifiers returned are the values the generator produced. -/
theorem createdIds_eq (rs : List Request) : ∀ s : Server Event,
    createdIds s rs = rs.filterMap Request.generated := by
  induction rs with
  | nil => intro s; rfl
  | cons r rs ih =>
    intro s
    rw [createdIds_cons, ih]
    cases hg : r.generated <;> simp [List.filterMap_cons, hg]

/-- A creation leaves every other key of the map as it was. -/
theorem mainHandler_channels_of_ne (s : Server Event) (r : Request) (id : String)
    (h : r.generated ≠ some id) : (mainHandler s r).1.channels id = s.channels id := by
  rcases mainHandler_cases s r with ⟨-, h1⟩ | ⟨id2, hg, h1⟩
  · rw [h1]
  · rw [h1]
    have : id ≠ id2 := fun e => h (e ▸ hg)
    simp [Function.update, this]

/-- Creations leave the keys they do not generate as they were. -/
theorem serveAll_channels_of_not_created (rs : List Request) : ∀ (s : Server Event)
    (id : String), id ∉ createdIds s rs → (serveAll s rs).1.channels id = s.channels id := by
  induction rs with
  | nil => intro s id _; rfl
  | cons r rs ih =>
    intro s id h
    rw [createdIds_cons] at h
    simp only [List.mem_append, not_or] at h
    show (serveAll (mainHandler s r).1 rs).1.channels id = _
    rw [ih _ id h.2]
    apply mainHandler_channels_of_ne
    intro hg
    exact h.1 (by simp [hg])

/-- C2: lookup correctness of the session registry. For every run of requests
whose returned identifiers are pairwise distinct, the map read at the
identifier of any session of the run gives the channel made for that session,
which is also the channel value handed to `main_` in that request; and the map
read at an identifier that is no key at the start and is not returned by the
run gives the nil channel (no channel). -/
theorem registry_lookup_correct (rs : List Request) : ∀ (s : Server Event),
    (createdIds s rs).Nodup →
    (∀ sess ∈ (serveAll s rs).2,
      (serveAll s rs).1.channels sess.uuid = some sess.made ∧
        sess.handed = some sess.made) ∧
    (∀ id, id ∉ createdIds s rs → s.channels id = none →
      (serveAll s rs).1.channels id = none) := by
  induction rs with
  | nil =>
    intro s _
    exact ⟨by simp [serveAll], fun id _ h => h⟩
  | cons r rs ih =>
    intro s hnd
    refine ⟨?_, fun id hid h0 => by
      rw [serveAll_channels_of_not_created _ s id hid]; exact h0⟩
    rw [createdIds_cons] at hnd
    have hnd2 := (List.nodup_append.1 hnd).2.1
    have hdisj := (List.nodup_append.1 hnd).2.2
    intro sess hsess
    simp only [serveAll, List.mem_append] at hsess
    rcases hsess with hhead | htail
    · rcases mainHandler_cases s r with ⟨-, h1⟩ | ⟨id, hg, h1⟩
      · rw [h1] at hhead; simp at hhead
      · rw [h1] at hhead
        simp only [Option.toList, List.mem_singleton] at hhead
        subst hhead
        refine ⟨?_, rfl⟩
        show (serveAll (mainHandler s r).1 rs).1.channels id = some s.next
        rw [serveAll_channels_of_not_created rs _ id
          (fun hmem => hdisj (by simp [hg]) hmem), h1]
        simp
    · exact (ih _ hnd2).1 sess htail

/-- Two sessions are created and both are found again; an identifier that was
never created is not found. -/
theorem registry_lookup_correct_witness :
    ((serveAll (Server.empty : Server SampleEvent)
        [newSession "S1", newSession "S2"]).1.channels "S1" = some 0 ∧
      (some 0 : Option Nat) = some 0) ∧
    ((serveAll (Server.empty : Server SampleEvent)
        [newSession "S1", newSession "S2"]).1.channels "S2" = some 1 ∧
      (some 1 : Option Nat) = some 1) ∧
    (serveAll (Server.empty : Server SampleEvent)
      [newSession "S1", newSession "S2"]).1.channels "S3" = none :=
  have h := registry_lookup_correct [newSession "S1", newSession "S2"]
    (Server.empty : Server SampleEvent) (by decide)
  ⟨h.1 ⟨"S1", 0, some 0⟩ (by decide), h.1 ⟨"S2", 1, some 1⟩ (by decide),
    h.2 "S3" (by decide) rfl⟩

/-- C6, as the code has it: when the values the generator produces are pairwise
distinct and none of them is a key of the registry at the start, the
identifiers returned by the creations are those values, pairwise distinct;
each of them is no key of the registry just before its creation; and every key
the registry had at the start keeps its channel. -/
theorem mainHandler_fresh_ids (rs : List Request) (s : Server Event)
    (hnd : (rs.filterMap Request.generated).Nodup)
    (hfresh : ∀ id ∈ rs.filterMap Request.generated, s.channels id = none) :
    createdIds s rs = rs.filterMap Request.generated ∧
    (createdIds s rs).Nodup ∧
    (∀ (pre post : List Request) (r : Request) (sess : Session),
      rs = pre ++ r :: post → (mainHandler (serveAll s pre).1 r).2 = some sess →
      (serveAll s pre).1.channels sess.uuid = none) ∧
    (∀ k c, s.channels k = some c → (serveAll s rs).1.channels k = some c) := by
  refine ⟨createdIds_eq rs s, by rw [createdIds_eq]; exact hnd, ?_, ?_⟩
  · intro pre post r sess hrs hsess
    rcases mainHandler_cases (serveAll s pre).1 r with ⟨-, h1⟩ | ⟨id, hg, h1⟩
    · rw [h1] at hsess; cases hsess
    · rw [h1] at hsess
      simp only [Option.some.injEq] at hsess
      subst hsess
      show (serveAll s pre).1.channels id = none
      subst hrs
      rw [List.filterMap_append, List.filterMap_cons, hg] at hnd hfresh
      have hnot : id ∉ createdIds s pre := by
        rw [createdIds_eq]
        intro hmem
        exact (List.nodup_append.1 hnd).2.2 hmem (by simp)
      rw [serveAll_channels_of_not_created pre s id hnot]
      exact hfresh id (by simp)
  · intro k c hk
    rw [serveAll_channels_of_not_created rs s k, hk]
    rw [createdIds_eq]
    intro hmem
    rw [hfresh k hmem] at hk
    cases hk

/-- Two creations with distinct generated values on the empty registry: the
identifiers returned are distinct and "S2" is no key before its creation. -/
theorem mainHandler_fresh_ids_witness :
    createdIds (Server.empty : Server SampleEvent) [newSession "S1", newSession "S2"] =
        [newSession "S1", newSession "S2"].filterMap Request.generated ∧
    (createdIds (Server.empty : Server SampleEvent)
        [newSession "S1", newSession "S2"]).Nodup ∧
    (serveAll (Server.empty : Server SampleEvent) [newSession "S1"]).1.channels "S2"
      = none :=
  have h := mainHandler_fresh_ids [newSession "S1", newSession "S2"]
    (Server.empty : Server SampleEvent) (by decide) (fun _ _ => rfl)
  ⟨h.1, h.2.1, h.2.2.1 [newSession "S1"] [] (newSession "S2") ⟨"S2", 1, some 1⟩ rfl rfl⟩

/-- C6, as stated, fails: when the generator produces the same value twice, the
two creations return the same identifier, the second identifier is already a
key when it is created, and the channel of the first session is replaced. -/
theorem mainHandler_ids_collide :
    ¬ (createdIds (Server.empty : Server SampleEvent)
        [newSession "S1", newSession "S1"]).Nodup ∧
    (mainHandler (Server.empty : Server SampleEvent) (newSession "S1")).1.channels "S1"
      = some 0 ∧
    (serveAll (Server.empty : Server SampleEvent)
      [newSession "S1", newSession "S1"]).1.channels "S1" = some 1 := by
  decide

theorem Server.empty_wellFormed : (Server.empty : Server Event).WellFormed :=
  ⟨by simp [Server.empty], by simp [Server.empty]⟩

theorem mainHandler_wellFormed (s : Server Event) (r : Request) (h : s.WellFormed) :
    (mainHandler s r).1.WellFormed := by
  rcases mainHandler_cases s r with ⟨-, h1⟩ | ⟨id, -, h1⟩
  · rw [h1]; exact h
  · rw [h1]
    have hlook : ∀ k c, Function.update s.channels id (some s.next) k = some c →
        (k = id ∧ c = s.next) ∨ (k ≠ id ∧ s.channels k = some c) := by
      intro k c hk
      by_cases hkid : k = id
      · subst hkid
        simp only [Function.update_same, Option.some.injEq] at hk
        exact Or.inl ⟨rfl, hk.symm⟩
      · rw [Function.update_noteq hkid] at hk
        exact Or.inr ⟨hkid, hk⟩
    constructor
    · intro k c hk
      rcases hlook k c hk with ⟨-, hc⟩ | ⟨-, hc⟩
      · show c < s.next + 1
        omega
      · have := h.1 k c hc
        show c < s.next + 1
        omega
    · intro k1 k2 c hk1 hk2
      rcases hlook k1 c hk1 with ⟨e1, hc1⟩ | ⟨-, hc1⟩ <;>
        rcases hlook k2 c hk2 with ⟨e2, hc2⟩ | ⟨-, hc2⟩
      · rw [e1, e2]
      · have := h.1 k2 c hc2; omega
      · have := h.1 k1 c hc1; omega
      · exact h.2 k1 k2 c hc1 hc2

theorem serveAll_wellFormed (rs : List Request) : ∀ s : Server Event,
    s.WellFormed → (serveAll s rs).1.WellFormed := by
  induction rs with
  | nil => intro s h; exact h
  | cons r rs ih => intro s h; exact ih _ (mainHandler_wellFormed s r h)

/-! ## What the worker leaves alone -/

/-- C8: the relay worker never changes the registry. From any state of a
worker (before the handshake, bound to a channel or to none, closed), whatever
the connection does, whatever the channels hold and whatever is sent on them
during the run, after any interleaving `ts` of steps and sends followed by any
number `n` of steps the map has the same keys with the same channels as before
(it is the same function of the key), and no channel was allocated. -/
theorem wshandler_registry_unchanged (marshal : Event → Option String) (conn : Conn)
    (ts : List (Tick Event)) (n : Nat) (st : State Event) :
    (run marshal conn n (exec marshal conn ts st)).server.channels = st.server.channels ∧
      (run marshal conn n (exec marshal conn ts st)).server.next = st.server.next := by
  have h1 := run_channels marshal conn n (exec marshal conn ts st)
  have h2 := exec_channels marshal conn ts st
  exact ⟨h1.1.trans h2.1, h1.2.trans h2.2⟩

/-! ## An identifier that is no key -/

/-- A worker that announces an identifier that is no key of the map: after the
lookup it stays in the loop for ever, on the nil channel, having done nothing
on its connection. -/
theorem run_unknown (marshal : Event → Option String) (conn : Conn) (s : Server Event)
    (uuid : String) (hup : conn.upgradeOk = true) (hrd : conn.readMessage = some uuid)
    (hreg : s.channels uuid = none) (k : Nat) :
    run marshal conn (3 + k) (State.init s) = ⟨s, Phase.relaying none, [], 0⟩ := by
  rw [run_add, run_three marshal conn s uuid hup hrd, hreg]
  exact run_of_fixed marshal conn _ (wshandler_nil marshal conn _ rfl) k

/-- C3 on the code: with "S1" the only session, a worker that announces
"unknown" is never closed and never ends: at every step it is short of the
`Closed` state, and from the third step on it waits in the relay loop on the
nil channel, with nothing written and the connection not closed. -/
theorem wshandler_unknown_id_blocks :
    (scenario.channels "unknown" = none) ∧
    (∀ n, (run sampleMarshal (goodConn "unknown") n (State.init scenario)).phase
      ≠ Phase.closed) ∧
    (∀ n, 3 ≤ n →
      (run sampleMarshal (goodConn "unknown") n (State.init scenario)).phase
          = Phase.relaying none ∧
        (run sampleMarshal (goodConn "unknown") n (State.init scenario)).log = []) := by
  have key : ∀ n, 3 ≤ n →
      run sampleMarshal (goodConn "unknown") n (State.init scenario) =
        ⟨scenario, Phase.relaying none, [], 0⟩ := by
    intro n hn
    obtain ⟨k, rfl⟩ : ∃ k, n = 3 + k := ⟨n - 3, by omega⟩
    exact run_unknown sampleMarshal (goodConn "unknown") scenario "unknown" rfl rfl
      (by decide) k
  refine ⟨by decide, ?_, fun n hn => by rw [key n hn]; exact ⟨rfl, rfl⟩⟩
  intro n
  rcases Nat.lt_or_ge n 3 with h | h
  · interval_cases n <;> decide
  · rw [key n h]; decide

/-! ## Which failures reach the process exit -/

theorem noExit_step (marshal : Event → Option String) (conn : Conn) (uuid : String)
    (hup : conn.upgradeOk = true) (hrd : conn.readMessage = some uuid)
    (st : State Event) (ts : List (Tick Event)) (h : NoExit marshal uuid st ts) :
    NoExit marshal uuid (wshandler marshal conn st) ts := by
  rcases h with hcl | ⟨hph, hall⟩
  · rw [wshandler_closed marshal conn st hcl]; exact Or.inl hcl
  · rcases hph with hph | hph | hph | hph
    · have : wshandler marshal conn st = { st with phase := Phase.awaitingHandshake } := by
        simp [wshandler, hph, hup, exitOnError]
      rw [this]
      exact Or.inr ⟨Or.inr (Or.inl rfl), hall⟩
    · have : wshandler marshal conn st = { st with phase := Phase.bound uuid } := by
        simp [wshandler, hph, hrd, exitOnError]
      rw [this]
      exact Or.inr ⟨Or.inr (Or.inr (Or.inl rfl)), hall⟩
    · have : wshandler marshal conn st =
          { st with phase := Phase.relaying (st.server.channels uuid) } := by
        simp [wshandler, hph]
      rw [this]
      exact Or.inr ⟨Or.inr (Or.inr (Or.inr rfl)), hall⟩
    · cases hreg : st.server.channels uuid with
      | none =>
        rw [hreg] at hph
        rw [wshandler_nil marshal conn st hph]
        exact Or.inr ⟨Or.inr (Or.inr (Or.inr (by rw [hph, hreg]))), hall⟩
      | some c =>
        rw [hreg] at hph
        cases hc : (st.server.heap c).contents with
        | nil =>
          rw [wshandler_blocked marshal conn st c hph hc]
          exact Or.inr ⟨Or.inr (Or.inr (Or.inr (by rw [hph, hreg]))), hall⟩
        | cons e rest =>
          have hall2 := hall c hreg
          rw [hc] at hall2
          cases hm : marshal e with
          | none => exact absurd hm (hall2 e (by simp))
          | some b =>
            cases hw : conn.writeOk st.nwrite b with
            | true =>
              obtain ⟨ch, hch, hstep⟩ :=
                wshandler_relay_ok marshal conn st c e rest b hph hc hm hw
              rw [hstep]
              refine Or.inr ⟨Or.inr (Or.inr (Or.inr (by simp [hreg]))), ?_⟩
              intro c2 hc2 x hx
              have hcc : c2 = c := by
                have : some c2 = some c := hc2.symm.trans hreg
                simpa using this
              subst hcc
              simp only [Function.update_same, hch] at hx
              exact hall2 x (by
                rcases List.mem_append.1 hx with h | h
                · simp [h]
                · simp [h])
            | false =>
              obtain ⟨ch, -, hstep⟩ :=
                wshandler_relay_fail marshal conn st c e rest b hph hc hm hw
              rw [hstep]
              exact Or.inl rfl

theorem noExit_send (marshal : Event → Option String) (uuid : String) (d : Nat) (x : Event)
    (st : State Event) (ts : List (Tick Event))
    (h : NoExit marshal uuid st (Tick.send d x :: ts)) :
    NoExit marshal uuid (st.send d x) ts := by
  rcases h with hcl | ⟨hph, hall⟩
  · exact Or.inl hcl
  · refine Or.inr ⟨hph, ?_⟩
    intro c hc e he
    apply hall c hc e
    by_cases hd : d = c
    · subst hd
      rw [State.send_heap_same] at he
      simpa [sentOn] using he
    · rw [State.send_heap_other st c d x (Ne.symm hd)] at he
      simpa [sentOn, hd] using he

theorem noExit_exec (marshal : Event → Option String) (conn : Conn) (uuid : String)
    (hup : conn.upgradeOk = true) (hrd : conn.readMessage = some uuid)
    (ts : List (Tick Event)) : ∀ st : State Event, NoExit marshal uuid st ts →
      NoExit marshal uuid (exec marshal conn ts st) [] := by
  induction ts with
  | nil => intro st h; exact h
  | cons t ts ih =>
    intro st h
    cases t with
    | step =>
      apply ih
      apply noExit_step marshal conn uuid hup hrd st ts
      rcases h with hcl | ⟨hph, hall⟩
      · exact Or.inl hcl
      · exact Or.inr ⟨hph, fun c hc e he => hall c hc e (by simpa [sentOn] using he)⟩
    | send d x => exact ih _ (noExit_send marshal uuid d x st ts h)

theorem noExit_run (marshal : Event → Option String) (conn : Conn) (uuid : String)
    (hup : conn.upgradeOk = true) (hrd : conn.readMessage = some uuid)
    (n : Nat) : ∀ st : State Event, NoExit marshal uuid st [] →
      NoExit marshal uuid (run marshal conn n st) [] := by
  induction n with
  | zero => intro st h; exact h
  | succ n ih => intro st h; exact ih _ (noExit_step marshal conn uuid hup hrd st [] h)

theorem noExit_not_exited (marshal : Event → Option String) (uuid : String)
    (st : State Event) (ts : List (Tick Event)) (h : NoExit marshal uuid st ts) :
    st.phase ≠ Phase.exited := by
  rcases h with h | ⟨h | h | h | h, -⟩ <;> rw [h] <;> simp

/-- C4, as the code has it: a failure of a transport write never ends the
process. Take any run in which the steps of the worker are interleaved with
sends of producers. When the upgrade and the handshake succeed and every event
that the channel bound to the announced identifier holds or is sent serialises,
then whatever the outcomes of the writes, the worker never reaches the process
exit of `exitOnError`: after the run and any number of further steps it is
short of `exited`. -/
theorem wshandler_write_failure_contained (marshal : Event → Option String) (conn : Conn)
    (s : Server Event) (uuid : String) (ts : List (Tick Event))
    (hup : conn.upgradeOk = true) (hrd : conn.readMessage = some uuid)
    (hm : ∀ c, s.channels uuid = some c →
      ∀ e ∈ (s.heap c).contents ++ sentOn c ts, marshal e ≠ none) :
    ∀ n, (run marshal conn n (exec marshal conn ts (State.init s))).phase ≠ Phase.exited := by
  intro n
  apply noExit_not_exited marshal uuid _ []
  apply noExit_run marshal conn uuid hup hrd
  apply noExit_exec marshal conn uuid hup hrd
  exact Or.inr ⟨Or.inl rfl, hm⟩

/-- On "S1" with every write failing, the worker is closed after the failed
write and the process is still there. -/
theorem wshandler_write_failure_contained_witness :
    (run sampleMarshal (failingConn "S1" 0) 1
      (exec sampleMarshal (failingConn "S1" 0) scheduleS1 (State.init freshS1))).phase
        = Phase.closed ∧
    (run sampleMarshal (failingConn "S1" 0) 1
      (exec sampleMarshal (failingConn "S1" 0) scheduleS1 (State.init freshS1))).phase
        ≠ Phase.exited :=
  ⟨by decide,
    wshandler_write_failure_contained sampleMarshal (failingConn "S1" 0) freshS1 "S1"
      scheduleS1 rfl rfl (by decide) 1⟩

/-- C4, as stated, fails: a failed upgrade, a failed handshake read and an
event that does not serialise each take the worker to the process exit of
`exitOnError`. -/
theorem wshandler_failures_exit_process :
    (run sampleMarshal ⟨false, some "S1", fun _ _ => true⟩ 1 (State.init scenario)).phase
      = Phase.exited ∧
    (run sampleMarshal ⟨true, none, fun _ _ => true⟩ 2 (State.init scenario)).phase
      = Phase.exited ∧
    (run sampleMarshal (goodConn "S1") 4 (State.init scenarioUnsupported)).phase
      = Phase.exited := by
  decide

/-! ## Isolation of sessions -/

theorem boundTo_step (marshal : Event → Option String) (conn : Conn) (B : String) (b : Nat)
    (hrd : conn.readMessage = some B) (st : State Event) (h : BoundTo B b st) :
    BoundTo B b (wshandler marshal conn st) := by
  obtain ⟨hreg, hph⟩ := h
  refine ⟨by rw [(wshandler_channels marshal conn st).1]; exact hreg, ?_⟩
  rcases hph with hc | hc | hc | hc | hc | hc
  · cases hu : conn.upgradeOk <;> simp [wshandler, hc, hu, exitOnError]
  · simp [wshandler, hc, hrd, exitOnError]
  · simp [wshandler, hc, hreg]
  · cases hr : (st.server.heap b).recv with
    | none => simp [wshandler, hc, hr]
    | some p =>
      obtain ⟨e, ch⟩ := p
      cases hm : marshal e with
      | none => simp [wshandler, hc, hr, hm, exitOnError]
      | some m =>
        cases hw : conn.writeOk st.nwrite m <;> simp [wshandler, hc, hr, hm, hw, exitOnError]
  · rw [wshandler_closed marshal conn st hc]; simp [hc]
  · rw [wshandler_exited marshal conn st hc]; simp [hc]

theorem agree_step (marshal : Event → Option String) (conn : Conn) (B : String) (b : Nat)
    (hrd : conn.readMessage = some B) (st1 st2 : State Event) (h : Agree B b st1 st2) :
    Agree B b (wshandler marshal conn st1) (wshandler marshal conn st2) := by
  obtain ⟨hb1, hb2, hp, hl, hn, hh⟩ := h
  refine ⟨boundTo_step marshal conn B b hrd st1 hb1, boundTo_step marshal conn B b hrd st2 hb2,
    ?_⟩
  rcases hb1.2 with hc | hc | hc | hc | hc | hc
  · have hc2 : st2.phase = _ := hp ▸ hc
    simp [wshandler, hc, hc2, hl, hn, hh]
  · have hc2 : st2.phase = _ := hp ▸ hc
    simp [wshandler, hc, hc2, hrd, hl, hn, hh]
  · have hc2 : st2.phase = _ := hp ▸ hc
    simp [wshandler, hc, hc2, hb1.1, hb2.1, hl, hn, hh]
  · have hc2 : st2.phase = _ := hp ▸ hc
    cases hr : (st1.server.heap b).recv with
    | none =>
      have hr2 : (st2.server.heap b).recv = none := hh ▸ hr
      simp [wshandler, hc, hc2, hr, hr2, hl, hn, hh]
    | some p =>
      obtain ⟨e, ch⟩ := p
      have hr2 : (st2.server.heap b).recv = some (e, ch) := hh ▸ hr
      cases hm : marshal e with
      | none => simp [wshandler, hc, hc2, hr, hr2, hm, hl, hn, exitOnError]
      | some m =>
        cases hw : conn.writeOk st1.nwrite m with
        | true =>
          have hw2 : conn.writeOk st2.nwrite m = true := hn ▸ hw
          simp [wshandler, hc, hc2, hr, hr2, hm, hw, hw2, hl, hn, exitOnError]
        | false =>
          have hw2 : conn.writeOk st2.nwrite m = false := hn ▸ hw
          simp [wshandler, hc, hc2, hr, hr2, hm, hw, hw2, hl, hn]
  · rw [wshandler_closed marshal conn st1 hc, wshandler_closed marshal conn st2 (hp ▸ hc)]
    exact ⟨hp, hl, hn, hh⟩
  · rw [wshandler_exited marshal conn st1 hc, wshandler_exited marshal conn st2 (hp ▸ hc)]
    exact ⟨hp, hl, hn, hh⟩

theorem agree_send_both (B : String) (b d : Nat) (e : Event) (st1 st2 : State Event)
    (h : Agree B b st1 st2) : Agree B b (st1.send d e) (st2.send d e) := by
  obtain ⟨hb1, hb2, hp, hl, hn, hh⟩ := h
  refine ⟨hb1, hb2, hp, hl, hn, ?_⟩
  by_cases hd : d = b
  · subst hd
    simp [State.send, Server.send, hh]
  · rw [State.send_heap_other st1 b d e (Ne.symm hd),
      State.send_heap_other st2 b d e (Ne.symm hd)]
    exact hh

theorem agree_send_left (B : String) (b d : Nat) (e : Event) (st1 st2 : State Event)
    (hd : d ≠ b) (h : Agree B b st1 st2) : Agree B b (st1.send d e) st2 := by
  obtain ⟨hb1, hb2, hp, hl, hn, hh⟩ := h
  refine ⟨hb1, hb2, hp, hl, hn, ?_⟩
  rw [State.send_heap_other st1 b d e (Ne.symm hd)]
  exact hh

theorem agree_exec (marshal : Event → Option String) (conn : Conn) (B : String) (b : Nat)
    (hrd : conn.readMessage = some B) (ts : List (Tick Event)) :
    ∀ st1 st2 : State Event, Agree B b st1 st2 →
      Agree B b (exec marshal conn ts st1) (exec marshal conn ts st2) := by
  induction ts with
  | nil => intro st1 st2 h; exact h
  | cons t ts ih =>
    intro st1 st2 h
    cases t with
    | step => exact ih _ _ (agree_step marshal conn B b hrd st1 st2 h)
    | send d e => exact ih _ _ (agree_send_both B b d e st1 st2 h)

theorem execProcess_of_exited (marshal : Event → Option String) (conns : Nat → Conn)
    (ts : List (PTick Event)) : ∀ p : Process Event, p.exited = true →
      execProcess marshal conns ts p = p := by
  induction ts with
  | nil => intro p _; rfl
  | cons t ts ih =>
    intro p h
    have : p.tick marshal conns t = p := by
      cases t <;> simp [Process.tick, h]
    rw [execProcess, this]
    exact ih p h

theorem execProcess_alive (marshal : Event → Option String) (conns : Nat → Conn)
    (ts : List (PTick Event)) (p : Process Event)
    (h : (execProcess marshal conns ts p).exited = false) : p.exited = false := by
  cases hp : p.exited with
  | false => rfl
  | true => rw [execProcess_of_exited marshal conns ts p hp, hp] at h; cases h

theorem execProcess_append (marshal : Event → Option String) (conns : Nat → Conn)
    (pre post : List (PTick Event)) : ∀ p : Process Event,
      execProcess marshal conns (pre ++ post) p =
        execProcess marshal conns post (execProcess marshal conns pre p) := by
  induction pre with
  | nil => intro p; rfl
  | cons t pre ih => intro p; exact ih _

/-- A worker away from `b` stays away from it. -/
theorem away_step (marshal : Event → Option String) (conn : Conn) (B : String) (b : Nat)
    (hrd : conn.readMessage ≠ some B) (st : State Event)
    (hinj : ∀ k, st.server.channels k = some b → k = B)
    (h : Away B b ⟨st.phase, st.log, st.nwrite⟩) :
    Away B b ⟨(wshandler marshal conn st).phase, (wshandler marshal conn st).log,
      (wshandler marshal conn st).nwrite⟩ ∧
      (wshandler marshal conn st).server.heap b = st.server.heap b := by
  obtain ⟨h1, h2⟩ := h
  simp only at h1 h2
  refine ⟨?_, wshandler_heap_other marshal conn st b h1⟩
  unfold Away
  simp only
  cases hph : st.phase with
  | connecting =>
    cases hu : conn.upgradeOk <;> simp [wshandler, hph, hu, exitOnError]
  | awaitingHandshake =>
    cases hr : conn.readMessage with
    | none => simp [wshandler, hph, hr, exitOnError]
    | some p =>
      have : p ≠ B := fun e => hrd (by rw [hr, e])
      simp [wshandler, hph, hr, exitOnError, this]
  | bound u =>
    have hu : u ≠ B := fun e => h2 (by rw [hph, e])
    have : st.server.channels u ≠ some b := fun e => hu (hinj u e)
    simp [wshandler, hph, this]
  | relaying d =>
    cases d with
    | none => simp [wshandler, hph]
    | some d =>
      have hd : d ≠ b := fun e => h1 (by rw [hph, e])
      cases hr : (st.server.heap d).recv with
      | none => simp [wshandler, hph, hr, hd]
      | some q =>
        obtain ⟨e, ch⟩ := q
        cases hm : marshal e with
        | none => simp [wshandler, hph, hr, hm, exitOnError]
        | some m =>
          cases hw : conn.writeOk st.nwrite m <;>
            simp [wshandler, hph, hr, hm, hw, exitOnError, hd]
  | closed => simp [wshandler, hph]
  | exited => simp [wshandler, hph]

/-- One tick of a process that is still there afterwards, seen from the worker
`j` of session `B`. -/
theorem isolated_tick (marshal : Event → Option String) (conns : Nat → Conn) (B : String)
    (b j : Nat) (hrd : (conns j).readMessage = some B)
    (hothers : ∀ i, i ≠ j → (conns i).readMessage ≠ some B)
    (p : Process Event) (st : State Event) (t : PTick Event)
    (h : Isolated B b j p st) (halive : (p.tick marshal conns t).exited = false) :
    Isolated B b j (p.tick marshal conns t)
      (exec marshal (conns j) (PTick.project j b t).toList st) := by
  obtain ⟨hex, hag, hinj, haway⟩ := h
  cases t with
  | step i =>
    have hch := (wshandler_channels marshal (conns i) (p.view i)).1
    simp only [Process.view] at hch
    by_cases hij : i = j
    · subst hij
      have hst := agree_step marshal (conns i) B b hrd _ _ hag
      refine ⟨halive, ?_, ?_, ?_⟩
      · simpa [Process.tick, hex, Process.view, PTick.project, exec] using hst
      · intro k hk
        apply hinj k
        simpa [Process.tick, hex, hch, Process.view] using hk
      · intro i2 hi2
        simpa [Process.tick, hex, Function.update, hi2] using haway i2 hi2
    · have haw := away_step marshal (conns i) B b (hothers i hij) (p.view i) hinj
        (haway i hij)
      obtain ⟨hb1, hb2, hp, hl, hn, hh⟩ := hag
      have hji : j ≠ i := Ne.symm hij
      refine ⟨halive, ⟨?_, ?_, ?_, ?_, ?_, ?_⟩, ?_, ?_⟩
      · refine ⟨?_, ?_⟩
        · simpa [Process.tick, hex, Process.view, hch] using hb1.1
        · simpa [Process.tick, hex, Process.view, Function.update, hji] using hb1.2
      · simpa [PTick.project, hij, exec] using hb2
      · simpa [Process.tick, hex, Process.view, Function.update, hji, PTick.project, hij,
          exec] using hp
      · simpa [Process.tick, hex, Process.view, Function.update, hji, PTick.project, hij,
          exec] using hl
      · simpa [Process.tick, hex, Process.view, Function.update, hji, PTick.project, hij,
          exec] using hn
      · have := haw.2
        simp only [Process.view] at this
        simpa [Process.tick, hex, Process.view, PTick.project, hij, exec, this] using hh
      · intro k hk
        apply hinj k
        simpa [Process.tick, hex, hch, Process.view] using hk
      · intro i2 hi2
        by_cases hi2i : i2 = i
        · subst hi2i
          simpa [Process.tick, hex, Function.update] using haw.1
        · simpa [Process.tick, hex, Function.update, hi2i] using haway i2 hi2
  | send d e =>
    refine ⟨halive, ?_, ?_, ?_⟩
    · by_cases hd : d = b
      · subst hd
        have := agree_send_both B d d e _ _ hag
        simpa [Process.tick, hex, Process.view, PTick.project, exec, State.send] using this
      · have := agree_send_left B b d e _ _ hd hag
        simpa [Process.tick, hex, Process.view, PTick.project, exec, State.send, hd]
          using this
    · intro k hk
      apply hinj k
      simpa [Process.tick, hex, Server.send] using hk
    · intro i2 hi2
      simpa [Process.tick, hex] using haway i2 hi2

/-- A run of a process that is still there at its end, seen from the worker
`j` of session `B`: that worker does what a worker alone does on its own steps
and the sends on its channel. -/
theorem isolated_exec (marshal : Event → Option String) (conns : Nat → Conn) (B : String)
    (b j : Nat) (hrd : (conns j).readMessage = some B)
    (hothers : ∀ i, i ≠ j → (conns i).readMessage ≠ some B)
    (ts : List (PTick Event)) : ∀ (p : Process Event) (st : State Event),
    Isolated B b j p st → (execProcess marshal conns ts p).exited = false →
    Isolated B b j (execProcess marshal conns ts p)
      (exec marshal (conns j) (ts.filterMap (PTick.project j b)) st) := by
  induction ts with
  | nil => intro p st h _; exact h
  | cons t ts ih =>
    intro p st h halive
    have h1 := isolated_tick marshal conns B b j hrd hothers p st t h
      (execProcess_alive marshal conns ts _ halive)
    have h2 := ih _ _ h1 halive
    cases hpr : PTick.project j b t with
    | none => simpa [List.filterMap_cons, hpr, exec, execProcess] using h2
    | some t2 =>
      rw [hpr] at h2
      cases t2 <;> simpa [List.filterMap_cons, hpr, exec, execProcess] using h2

/-- The process at the start of a run on a registry in which only `B` holds
the channel `b`, seen from the worker `j`. -/
theorem isolated_init (B : String) (b j : Nat) (s1 s2 : Server Event)
    (hB1 : s1.channels B = some b) (hB2 : s2.channels B = some b)
    (hinj : ∀ k, s1.channels k = some b → k = B) (hh : s1.heap b = s2.heap b) :
    Isolated B b j (Process.init s1) (State.init s2) :=
  ⟨rfl, ⟨⟨hB1, Or.inl rfl⟩, ⟨hB2, Or.inl rfl⟩, rfl, rfl, rfl, hh⟩, hinj,
    fun _ _ => ⟨by simp [Process.init], by simp [Process.init]⟩⟩

/-- A step of the worker of session `B` leaves every channel but its own as it
is, at any point of a run of a process that is still there afterwards. -/
theorem step_takes_nothing (marshal : Event → Option String) (conns : Nat → Conn)
    (B : String) (a b j : Nat) (hab : a ≠ b) (hrd : (conns j).readMessage = some B)
    (hothers : ∀ i, i ≠ j → (conns i).readMessage ≠ some B)
    (s : Server Event) (hB : s.channels B = some b)
    (hinj : ∀ k, s.channels k = some b → k = B)
    (pre : List (PTick Event))
    (halive : (execProcess marshal conns (pre ++ [PTick.step j]) (Process.init s)).exited
      = false) :
    (execProcess marshal conns (pre ++ [PTick.step j]) (Process.init s)).server.heap a =
      (execProcess marshal conns pre (Process.init s)).server.heap a := by
  rw [execProcess_append] at halive ⊢
  have hpre := execProcess_alive marshal conns _ _ halive
  obtain ⟨hex, hag, -, -⟩ := isolated_exec marshal conns B b j hrd hothers pre _ _
    (isolated_init B b j s s hB hB hinj rfl) hpre
  have hne : ((execProcess marshal conns pre (Process.init s)).view j).phase ≠
      Phase.relaying (some a) := by
    rcases hag.1.2 with hc | hc | hc | hc | hc | hc <;> rw [hc] <;> simp [Ne.symm hab]
  have := wshandler_heap_other marshal (conns j) _ a hne
  simpa [execProcess, Process.tick, hex, Process.view] using this

/-- C7, as the code has it: session isolation in a process that is not ended by
`exitOnError`. Take a registry built by creations from the empty one, holding
sessions `A` and `B` with distinct identifiers, and two runs of the process
(any number of workers, the worker `j` being the only one that announces `B`):
they start with the same on the channel of `B` and have the same steps of the
worker `j` and the same sends on the channel of `B`, in the same order, and
they may differ in everything else, in what the other channels hold, in what is
sent on them and in the steps of the other workers. When neither run reaches
the process exit, the channels of `A` and `B` are distinct, the worker `j` has
done the same on its connection in both runs (the same writes of the same
messages with the same outcomes), and no step of the worker `j` changes the
channel of `A`: it takes no event from it. -/
theorem wshandler_session_isolation (marshal : Event → Option String) (conns : Nat → Conn)
    (rs : List Request) (s1 s2 : Server Event) (A B : String) (a b j : Nat)
    (ts1 ts2 : List (PTick Event))
    (hreg1 : s1.channels = (serveAll (Server.empty : Server Event) rs).1.channels)
    (hreg2 : s2.channels = s1.channels)
    (hA : s1.channels A = some a) (hB : s1.channels B = some b) (hAB : A ≠ B)
    (hagree : s1.heap b = s2.heap b)
    (hts : ts1.filterMap (PTick.project j b) = ts2.filterMap (PTick.project j b))
    (hrd : (conns j).readMessage = some B)
    (hothers : ∀ i, i ≠ j → (conns i).readMessage ≠ some B)
    (halive1 : (execProcess marshal conns ts1 (Process.init s1)).exited = false)
    (halive2 : (execProcess marshal conns ts2 (Process.init s2)).exited = false) :
    a ≠ b ∧
    ((execProcess marshal conns ts1 (Process.init s1)).workers j).log =
      ((execProcess marshal conns ts2 (Process.init s2)).workers j).log ∧
    (∀ pre post, ts1 = pre ++ PTick.step j :: post →
      (execProcess marshal conns (pre ++ [PTick.step j]) (Process.init s1)).server.heap a =
        (execProcess marshal conns pre (Process.init s1)).server.heap a) ∧
    (∀ pre post, ts2 = pre ++ PTick.step j :: post →
      (execProcess marshal conns (pre ++ [PTick.step j]) (Process.init s2)).server.heap a =
        (execProcess marshal conns pre (Process.init s2)).server.heap a) := by
  have hwf := serveAll_wellFormed rs (Server.empty : Server Event) Server.empty_wellFormed
  have hinj1 : ∀ k, s1.channels k = some b → k = B := by
    intro k hk
    rw [hreg1] at hk hB
    exact hwf.2 k B b hk hB
  have hinj2 : ∀ k, s2.channels k = some b → k = B := by
    intro k hk
    rw [hreg2] at hk
    exact hinj1 k hk
  have hab : a ≠ b := by
    intro e
    exact hAB (hinj1 A (e ▸ hA))
  have hB2 : s2.channels B = some b := by rw [hreg2]; exact hB
  have i1 := isolated_exec marshal conns B b j hrd hothers ts1 _ _
    (isolated_init B b j s1 s1 hB hB hinj1 rfl) halive1
  have i2 := isolated_exec marshal conns B b j hrd hothers ts2 _ _
    (isolated_init B b j s2 s2 hB2 hB2 hinj2 rfl) halive2
  have h12 : Agree B b (State.init s1) (State.init s2) :=
    ⟨⟨hB, Or.inl rfl⟩, ⟨hB2, Or.inl rfl⟩, rfl, rfl, rfl, hagree⟩
  have e12 := (agree_exec marshal (conns j) B b hrd
    (ts1.filterMap (PTick.project j b)) _ _ h12).2.2.2.1
  have e1 := i1.2.1.2.2.2.1
  have e2 := i2.2.1.2.2.2.1
  simp only [Process.view] at e1 e2
  refine ⟨hab, ?_, ?_, ?_⟩
  · rw [e1, e2, e12, hts]
  · intro pre post hts1
    apply step_takes_nothing marshal conns B a b j hab hrd hothers s1 hB hinj1 pre
    apply execProcess_alive marshal conns post
    rw [← execProcess_append]
    simpa [hts1] using halive1
  · intro pre post hts2
    apply step_takes_nothing marshal conns B a b j hab hrd hothers s2 hB2 hinj2 pre
    apply execProcess_alive marshal conns post
    rw [← execProcess_append]
    simpa [hts2] using halive2

/-- The worker of "B" does the same in two runs that differ in what the worker
of "A" receives and when, neither run ending the process, and its first step
leaves the channel of "A" alone. -/
theorem wshandler_session_isolation_witness :
    0 ≠ 1 ∧
    ((execProcess sampleMarshal isolationConns isolationTicks
        (Process.init isolationRun1)).workers 1).log =
      ((execProcess sampleMarshal isolationConns isolationTicksOther
        (Process.init isolationRunTwo)).workers 1).log ∧
    (execProcess sampleMarshal isolationConns
        ([PTick.send 1 SampleEvent.x1, PTick.send 1 SampleEvent.x2] ++ [PTick.step 1])
        (Process.init isolationRun1)).server.heap 0 =
      (execProcess sampleMarshal isolationConns
        [PTick.send 1 SampleEvent.x1, PTick.send 1 SampleEvent.x2]
        (Process.init isolationRun1)).server.heap 0 :=
  have h := wshandler_session_isolation sampleMarshal isolationConns
    [newSession "A", newSession "B"] isolationRun1 isolationRunTwo "A" "B" 0 1 1
    isolationTicks isolationTicksOther
    rfl rfl (by decide) (by decide) (by decide) rfl (by decide) rfl
    (fun i hi => by simp [isolationConns, goodConn, hi]) (by decide) (by decide)
  ⟨h.1, h.2.1,
    h.2.2.1 [PTick.send 1 SampleEvent.x1, PTick.send 1 SampleEvent.x2] _ rfl⟩

/-- C7, as stated, fails: with sessions "A" and "B", the same two events sent
on the channel of "B" at the start and the same steps of the two workers in
both runs, the worker of "B" writes both events of its channel when an event
that serialises waits on the channel of "A", and only the first one when the
event that waits on the channel of "A" does not serialise: the worker of "A"
then reaches the process exit of `exitOnError`, which ends the worker of "B"
too. -/
theorem wshandler_isolation_broken_by_exit :
    isolationRun1.channels "A" = some 0 ∧ isolationRun1.channels "B" = some 1 ∧
    isolationRunUnsupported.channels = isolationRun1.channels ∧
    isolationRunUnsupported.heap 1 = isolationRun1.heap 1 ∧
    ((execProcess sampleMarshal isolationConns isolationTicks
        (Process.init isolationRun1)).workers 1).log =
      [Action.write "\x7b\"x\":1\x7d" true, Action.write "\x7b\"x\":2\x7d" true] ∧
    ((execProcess sampleMarshal isolationConns isolationTicks
        (Process.init isolationRunUnsupported)).workers 1).log =
      [Action.write "\x7b\"x\":1\x7d" true] ∧
    (execProcess sampleMarshal isolationConns isolationTicks
        (Process.init isolationRunUnsupported)).exited = true :=
  ⟨by decide, by decide, rfl, rfl, by decide, by decide, by decide⟩

/-! ## The channel of a new session -/

/-- C9, as the code has it: the channel made for a new session is unbuffered.
Its capacity is zero and it is empty; whatever was sent on it before, a send
on it does not complete while no worker receives, the event waits on the
channel with those sent before it, in order; and when a worker then attaches
with the identifier of the session (upgrade, handshake, serialisation and
writes succeeding), the waiting events are written in the order they were
sent, one message each. -/
theorem mainHandler_channel_unbuffered (s : Server Event) (r : Request) (sess : Session)
    (h : (mainHandler s r).2 = some sess) :
    ((mainHandler s r).1.heap sess.made).cap = 0 ∧
    ((mainHandler s r).1.heap sess.made).contents = [] ∧
    (∀ es : List Event,
      ((mainHandler s r).1.sendAll sess.made es).heap sess.made = ⟨0, [], es⟩) ∧
    (∀ (es : List Event) (e : Event),
      ((((mainHandler s r).1.sendAll sess.made es).heap sess.made).send e).2 = false) ∧
    (∀ (marshal : Event → Option String) (conn : Conn) (es : List Event)
      (encs : List String),
      conn.upgradeOk = true → conn.readMessage = some sess.uuid →
      es.map marshal = encs.map some →
      (∀ i b, i < es.length → conn.writeOk i b = true) →
      ∀ n, es.length + 3 ≤ n →
        (run marshal conn n
          (State.init ((mainHandler s r).1.sendAll sess.made es))).log =
          encs.map (fun b => Action.write b true)) := by
  rcases mainHandler_cases s r with ⟨-, h1⟩ | ⟨id, -, h1⟩
  · rw [h1] at h; cases h
  · rw [h1] at h
    simp only [Option.some.injEq] at h
    subst h
    rw [h1]
    have hnew : (Function.update s.heap s.next (makeChan : Chan Event)) s.next =
        ⟨0, [], []⟩ := by simp [makeChan]
    have hsend : ∀ es : List Event,
        ((⟨Function.update s.channels id (some s.next),
            Function.update s.heap s.next makeChan, s.next + 1⟩ : Server Event).sendAll
          s.next es).heap s.next = ⟨0, [], es⟩ ∧
        ((⟨Function.update s.channels id (some s.next),
            Function.update s.heap s.next makeChan, s.next + 1⟩ : Server Event).sendAll
          s.next es).channels = Function.update s.channels id (some s.next) := by
      intro es
      simpa using Server.sendAll_unbuffered s.next es _ [] hnew
    refine ⟨by simp [makeChan], by simp [makeChan, Chan.contents],
      fun es => (hsend es).1, ?_, ?_⟩
    · intro es e
      show ((_ : Chan Event).send e).2 = false
      rw [(hsend es).1]
      simp [Chan.send]
    · intro marshal conn es encs hup hrd hm hw n hn
      have hlen : encs.length = es.length := by
        have := congrArg List.length hm
        simpa using this.symm
      have h0 : Fifo marshal id s.next encs
          (State.init ((⟨Function.update s.channels id (some s.next),
            Function.update s.heap s.next makeChan, s.next + 1⟩ : Server Event).sendAll
              s.next es)) [] :=
        ⟨by simp [State.init, (hsend es).2], [], encs, rfl, rfl, rfl,
          by simpa [State.init, (hsend es).1, Chan.contents] using hm,
          Or.inr ⟨rfl, Or.inl rfl⟩⟩
      exact (fifo_drain marshal conn id s.next encs hup hrd
        (fun i b hi => hw i b (hlen ▸ hi)) _ h0 n (by omega)).1

/-- The channel of session "S1": unbuffered, and the two events sent before a
worker attached are delivered in order. -/
theorem mainHandler_channel_unbuffered_witness :
    ((mainHandler (Server.empty : Server SampleEvent) (newSession "S1")).1.heap 0).cap = 0 ∧
    (run sampleMarshal (goodConn "S1") 5 (State.init scenario)).log =
      ["\x7b\"x\":1\x7d", "\x7b\"x\":2\x7d"].map (fun b => Action.write b true) :=
  have h := mainHandler_channel_unbuffered (Server.empty : Server SampleEvent)
    (newSession "S1") ⟨"S1", 0, some 0⟩ rfl
  ⟨h.1, h.2.2.2.2 sampleMarshal (goodConn "S1") [SampleEvent.x1, SampleEvent.x2]
    ["\x7b\"x\":1\x7d", "\x7b\"x\":2\x7d"] rfl rfl (by decide) (fun _ _ _ => rfl) 5
    (by decide)⟩

/-- C9, as stated, fails: the channel made for session "S1" has capacity zero,
not a capacity greater than zero, and a send on it does not complete while no
worker receives from it. -/
theorem mainHandler_channel_capacity_zero :
    ¬ (0 < ((mainHandler (Server.empty : Server SampleEvent)
        (newSession "S1")).1.heap 0).cap) ∧
    ((((mainHandler (Server.empty : Server SampleEvent)
        (newSession "S1")).1.heap 0).send SampleEvent.x1).2 = false) := by
  decide

end Playground
